import Mathlib

/-!
Verification of the dense matrix engine of the NetNeurons repository
(files src/ESN/src/StaticMatrix.h and src/ESN/src/Matrix.h) against its
natural-language specification.

The buffer kernel StaticMatrix is modelled as a structure holding the two
shape fields and the row-major element list (element (i,j) of an m x n
matrix sits at flat index i * n + j, exactly as in the C++ source where
_data[i * _n + j] holds the (i,j) entry).  The generic element type T of
the C++ template is kept generic over a linearly ordered field, so that
the pivoting comparisons of the source (ABS, >, == 0) are meaningful;
the claims are stated at T = ℚ, exact arithmetic.

The shared copy-on-write handle Matrix is modelled by an explicit heap
(Store): a list of cells, each holding a buffer together with its
reference count (the Data { StaticMatrix *d; int n; } cell of Matrix.h);
a handle (the _p pointer) is either none (NULL) or an address into that
list.  Freeing a cell when its count reaches zero only returns memory,
so it is not modelled: a cell with count zero is simply unreachable.

Loops of the C++ source are translated into structural recursions or,
when every iteration writes a distinct position that no later iteration
reads, into a single pointwise rebuild of the buffer (overwriteIdx
below); each definition cites the source lines it is translated from.
Assertion failures of fallible operations and reads outside a buffer
(undefined behavior in the source) are modelled as none.
-/

namespace NetNeurons

/-- Rebuild a list, giving position p the value f p (old value at p).
Models a C loop nest in which every iteration writes one distinct
position with a value that depends only on data no iteration writes. -/
def overwriteIdx {α : Type} (f : Nat → α → α) (l : List α) (d : α) : List α :=
  (List.range l.length).map (fun p => f p (l.getD p d))

/-- INT_MAX, the default value of the sm and sn parameters of cut
(StaticMatrix.h line 72). -/
def INT_MAX : Int := 2147483647

/-! ### The buffer kernel: StaticMatrix (src/ESN/src/StaticMatrix.h)

Fields _m (rows), _n (columns) and the owned row-major array _data
(StaticMatrix.h lines 84-86). -/

structure StaticMatrix (T : Type) where
  m : Nat
  n : Nat
  data : List T

instance {T : Type} [Zero T] : Inhabited (StaticMatrix T) := ⟨⟨0, 0, []⟩⟩

variable {T : Type} [LinearOrderedField T]

namespace StaticMatrix

/-- Buffer invariant of the kernel: positive shape and a backing array of
exactly rows * cols elements (constructor asserts, lines 91-127). -/
def WF (A : StaticMatrix T) : Prop :=
  0 < A.m ∧ 0 < A.n ∧ A.data.length = A.m * A.n

/-- Element access operator()(i, j), StaticMatrix.h lines 137-147:
returns _data[i * _n + j]. -/
def at' (A : StaticMatrix T) (i j : Nat) : T :=
  A.data.getD (i * A.n + j) 0

/-- Sized zero-fill constructor StaticMatrix(int m, int n),
lines 106-113 (memset to zero). -/
def mkZero (m n : Nat) : StaticMatrix T :=
  ⟨m, n, List.replicate (m * n) 0⟩

/-- Sized fill constructor StaticMatrix(int m, int n, T value),
lines 115-127 (fills the first row, then replicates it row by row; the
net effect is every position holding value). -/
def mkVal (m n : Nat) (value : T) : StaticMatrix T :=
  ⟨m, n, List.replicate (m * n) value⟩

/-- addIdentity, StaticMatrix.h lines 179-189: adds 1 at the flat
positions k * (_n + 1) for k in [0, min(_m, _n)), i.e. on the diagonal. -/
def addIdentity (A : StaticMatrix T) : StaticMatrix T :=
  ⟨A.m, A.n, overwriteIdx
    (fun p v => if p % (A.n + 1) = 0 ∧ p / (A.n + 1) < min A.m A.n then v + 1 else v)
    A.data 0⟩

/-- Shape check of operator+= (StaticMatrix.h line 230):
ASSERT((_m == other._m) || (_n == other._n)).  Note the disjunction. -/
def plusEqCheck (A B : StaticMatrix T) : Bool :=
  decide (A.m = B.m) || decide (A.n = B.n)

/-- Shape check of operator-= (StaticMatrix.h line 243): the same
disjunctive assertion as operator+=. -/
def minusEqCheck (A B : StaticMatrix T) : Bool :=
  decide (A.m = B.m) || decide (A.n = B.n)

/-- Scalar multiplication operator*=(const T &c), lines 282-289:
every element of _data is multiplied by c in place. -/
def mulScalar (A : StaticMatrix T) (c : T) : StaticMatrix T :=
  ⟨A.m, A.n, A.data.map (· * c)⟩

/-- Scalar division operator/=(const T &c), line 61:
defined in the source as ((*this) *= (1 / c)); no check on c at all. -/
def divScalar (A : StaticMatrix T) (c : T) : StaticMatrix T :=
  A.mulScalar (1 / c)

/-- Plain element store through the mutable reference returned by
operator()(i, j) (StaticMatrix.h lines 143-147). -/
def setAt (A : StaticMatrix T) (i j : Nat) (v : T) : StaticMatrix T :=
  ⟨A.m, A.n, A.data.set (i * A.n + j) v⟩

/-- Accumulation loop of the naive product (the inner while (k) loop of
operator*= lines 299-317, getProduct lines 802-821, partialProduct lines
346-353): acc starts at 0 and f (k-1), f (k-2), ..., f 0 are added in
that order. -/
def dotLoop (f : Nat → T) : Nat → T → T
  | 0, acc => acc
  | k + 1, acc => dotLoop f k (acc + f k)

/-- One output entry of the naive triple loop: the inner loop accumulates
m1[i, k] * m2._data[k * selfN + j], reading m2 rows with the stride
selfN of the receiving buffer (partialProduct lines 346-352 use the _n
of the receiving buffer; getProduct lines 809-818 use other._n; the
asserts make these equal). -/
def ppEntry (m1 m2 : StaticMatrix T) (selfN i j : Nat) : T :=
  dotLoop (fun k => m1.at' i k * m2.data.getD (k * selfN + j) 0) m1.n 0

/-- getProduct(other), StaticMatrix.h lines 794-823: allocates an
A.m x B.n buffer and fills every entry with the dot product of a row of
A and a column of B. -/
def getProduct (A B : StaticMatrix T) : StaticMatrix T :=
  ⟨A.m, B.n, (List.range (A.m * B.n)).map (fun p => ppEntry A B B.n (p / B.n) (p % B.n))⟩

/-- partialProduct(m1, m2, i1, i2, j1, j2), StaticMatrix.h lines 333-358:
writes only the entries with row in [i1, i2] and column in [j1, j2],
each receiving the corresponding entry of m1 * m2; every other entry
keeps its value.  Each loop iteration writes one distinct block position
with a value read from the m1 and m2 buffers only, so the loop nest is
one pointwise rebuild. -/
def partialProduct (A m1 m2 : StaticMatrix T) (i1 i2 j1 j2 : Nat) : StaticMatrix T :=
  ⟨A.m, A.n, overwriteIdx (fun p v =>
    if i1 ≤ p / A.n ∧ p / A.n ≤ i2 ∧ j1 ≤ p % A.n ∧ p % A.n ≤ j2 then
      ppEntry m1 m2 A.n (p / A.n) (p % A.n)
    else v) A.data 0⟩

/-- Pivot scan of det (lines 372-382) and of operator/= (lines 427-437):
starting from the diagonal entry of the active column k the scan walks up
the column (index -= _n while it stays positive, i.e. rows k-1, ..., 0),
keeping the entry of largest absolute value with strict improvement.
f r is the column entry in row r; the initial state is (|f k|, k). -/
def pivotLoop (f : Nat → T) : Nat → T × Nat → T × Nat
  | 0, st => st
  | r + 1, st => pivotLoop f r (if |f r| > st.1 then (|f r|, r) else st)

/-- Partial row swap on a scratch copy: columns 0..k of rows k and b are
exchanged ((k + 1) elements per row: det lines 386-391, operator/= lines
441-446 acting on the copy). -/
def swapRowsUpTo (n k b : Nat) (cp : List T) : List T :=
  overwriteIdx (fun p v =>
    if p / n = k ∧ p % n ≤ k then cp.getD (b * n + p % n) 0
    else if p / n = b ∧ p % n ≤ k then cp.getD (k * n + p % n) 0
    else v) cp 0

/-- Full row swap: rows k and b exchanged over all n columns (operator/=
lines 447-449 acting on self). -/
def swapRowsFull (n k b : Nat) (d : List T) : List T :=
  overwriteIdx (fun p v =>
    if p / n = k then d.getD (b * n + p % n) 0
    else if p / n = b then d.getD (k * n + p % n) 0
    else v) d 0

/-- Elimination step of det (lines 393-403): every row r above the pivot
row (r < k) with a non-zero entry tmpT in the active column k gets
tmpT / pivot times the pivot row subtracted on columns 0..k-1. -/
def detElim (n k : Nat) (cp : List T) : List T :=
  overwriteIdx (fun p v =>
    if p / n < k ∧ p % n < k ∧ cp.getD (p / n * n + k) 0 ≠ 0 then
      v - cp.getD (p / n * n + k) 0 * cp.getD (k * n + p % n) 0 / cp.getD (k * n + k) 0
    else v) cp 0

/-- Signed diagonal product finishing det (lines 406-411): starts from
copy[0] and multiplies the diagonal entries of rows n-1 down to 1. -/
def diagLoop (n : Nat) (cp : List T) : Nat → T → T
  | 0, acc => acc
  | r + 1, acc => diagLoop n cp r (acc * cp.getD ((r + 1) * (n + 1)) 0)

/-- Gaussian elimination loop of det (lines 369-405) on the scratch copy;
the fuel k + 1 means the active column is k + 1, so columns n-1 down to 1
are processed (while (--k)).  If the largest absolute value in the active
column (rows 0..col) is zero the determinant is 0, returned immediately
(lines 383-384); otherwise the pivot row is swapped into the diagonal
(flipping the sign flag) and the column is eliminated.  When the loop
ends the result is the signed product of the diagonal. -/
def detLoop (n : Nat) : Nat → List T → Bool → T
  | 0, cp, neg =>
    if neg then -(diagLoop n cp (n - 1) (cp.getD 0 0)) else diagLoop n cp (n - 1) (cp.getD 0 0)
  | k + 1, cp, neg =>
    let col := k + 1
    let st := pivotLoop (fun r => cp.getD (r * n + col) 0) col
      (|cp.getD (col * n + col) 0|, col)
    if st.1 = 0 then 0
    else
      detLoop n k
        (detElim n col (if st.2 ≠ col then swapRowsUpTo n col st.2 cp else cp))
        (if st.2 ≠ col then !neg else neg)

/-- det(), StaticMatrix.h lines 360-412 (runs on a scratch copy of
_data; ASSERT(_m == _n)). -/
def det (A : StaticMatrix T) : T :=
  detLoop A.n (A.n - 1) A.data false

/-- Predicate: the elimination of det meets a zero pivot (the condition
maxAbs == 0 of line 383) at some step of its run. -/
def detHitsZero (n : Nat) : Nat → List T → Bool
  | 0, _ => false
  | k + 1, cp =>
    let col := k + 1
    let st := pivotLoop (fun r => cp.getD (r * n + col) 0) col
      (|cp.getD (col * n + col) 0|, col)
    if st.1 = 0 then true
    else detHitsZero n k (detElim n col (if st.2 ≠ col then swapRowsUpTo n col st.2 cp else cp))

/-- Scale step of operator/= on self (lines 451-463): the full pivot row
of self is divided by the pivot. -/
def gjScaleSelf (n k : Nat) (piv : T) (d : List T) : List T :=
  overwriteIdx (fun p v => if p / n = k then v / piv else v) d 0

/-- Scale step of operator/= on the scratch copy (lines 460-465): only
columns 0..k-1 of the pivot row are divided (the pivot entry itself and
the columns right of it are not touched; they are never read again). -/
def gjScaleCopy (n k : Nat) (piv : T) (cp : List T) : List T :=
  overwriteIdx (fun p v => if p / n = k ∧ p % n < k then v / piv else v) cp 0

/-- Elimination step of operator/= on self (lines 467-487): every row r
other than the pivot row whose multiplier tmpT = copy[r, k] is non-zero
gets tmpT times the pivot row of self subtracted on all columns. -/
def gjElimSelf (n k : Nat) (cp d : List T) : List T :=
  overwriteIdx (fun p v =>
    if p / n ≠ k ∧ cp.getD (p / n * n + k) 0 ≠ 0 then
      v - cp.getD (p / n * n + k) 0 * d.getD (k * n + p % n) 0
    else v) d 0

/-- Elimination step of operator/= on the scratch copy (lines 474-478):
same rows, but only columns 0..k-1 are updated. -/
def gjElimCopy (n k : Nat) (cp : List T) : List T :=
  overwriteIdx (fun p v =>
    if p / n ≠ k ∧ p % n < k ∧ cp.getD (p / n * n + k) 0 ≠ 0 then
      v - cp.getD (p / n * n + k) 0 * cp.getD (k * n + p % n) 0
    else v) cp 0

/-- One column step of operator/= (the loop body, StaticMatrix.h lines
424-488), acting on the scratch copy of the divisor and on self.  The
pivot is scanned in column k over rows 0..k of the copy; the pivot row
is swapped into row k (columns 0..k on the copy, all columns on self);
unless the pivot value (read from the copy diagonal after the swap,
line 451) is already 1 the pivot row is scaled; then the column is
eliminated from every other row.  ASSERT(maxAbs != 0) (line 438) is
compiled out; a zero pivot means a singular divisor, a precondition
violation. -/
def gjStep (n k : Nat) (cp d : List T) : List T × List T :=
  let st := pivotLoop (fun r => cp.getD (r * n + k) 0) k (|cp.getD (k * n + k) 0|, k)
  let cp1 := if st.2 ≠ k then swapRowsUpTo n k st.2 cp else cp
  let d1 := if st.2 ≠ k then swapRowsFull n k st.2 d else d
  let piv := cp1.getD (k * n + k) 0
  let cp2 := if piv ≠ 1 then gjScaleCopy n k piv cp1 else cp1
  let d2 := if piv ≠ 1 then gjScaleSelf n k piv d1 else d1
  (gjElimCopy n k cp2, gjElimSelf n k cp2 d2)

/-- The column loop of operator/= (lines 424-489): while (k) { --k; ... },
so columns n-1 down to 0 are processed. -/
def gjLoop (n : Nat) : Nat → List T → List T → List T
  | 0, _, d => d
  | k + 1, cp, d => gjLoop n k (gjStep n k cp d).1 (gjStep n k cp d).2

/-- operator/=(const StaticMatrix &other), StaticMatrix.h lines 414-493:
full Gauss–Jordan elimination with partial pivoting on a scratch copy of
other (memcpy at line 421), mirror-applied to self, leaving
self = other⁻¹ * self.  ASSERT square and same size (line 417). -/
def divEq (A other : StaticMatrix T) : StaticMatrix T :=
  ⟨A.m, A.n, gjLoop A.n A.n other.data A.data⟩

/-- cut(other, di, dj, si, sj, sm, sn), StaticMatrix.h lines 718-759.
The initial assertion si >= 0 and sj >= 0 (line 722) is modelled as
none.  A negative destination offset is folded into the source offset
and the copy size (si += di; sm += di; di = 0, lines 723-734 — note
this moves the source offset DOWN).  The copy width is clamped to both
buffers and a non-positive width returns self unchanged (lines 735-742);
the height is clamped the same way (lines 743-748) and a non-positive
height leaves the row loop idle.  The row loop (lines 749-757) copies sn
consecutive source elements into each destination row; a source read
outside the buffer (possible exactly when the folded source offset went
negative) is undefined behavior, modelled as none. -/
def cut (A other : StaticMatrix T) (di dj si sj sm sn : Int) : Option (StaticMatrix T) :=
  if ¬ (0 ≤ si ∧ 0 ≤ sj) then none else
  let si2 := if di < 0 then si + di else si
  let sm2 := if di < 0 then sm + di else sm
  let di2 := if di < 0 then 0 else di
  let sj2 := if dj < 0 then sj + dj else sj
  let sn2 := if dj < 0 then sn + dj else sn
  let dj2 := if dj < 0 then 0 else dj
  let sn3 := min (min sn2 ((other.n : Int) - sj2)) ((A.n : Int) - dj2)
  if sn3 ≤ 0 then some A else
  let sm3 := min (min sm2 ((other.m : Int) - si2)) ((A.m : Int) - di2)
  if sm3 ≤ 0 then some A else
  let sj0 := sj2 + si2 * (other.n : Int)
  if 0 ≤ sj0 ∧ sj0 + (sm3 - 1) * (other.n : Int) + sn3 ≤ (other.data.length : Int) then
    some ⟨A.m, A.n, overwriteIdx (fun p v =>
      if di2 ≤ (p : Int) / (A.n : Int) ∧ (p : Int) / (A.n : Int) < di2 + sm3 ∧
          dj2 ≤ (p : Int) % (A.n : Int) ∧ (p : Int) % (A.n : Int) < dj2 + sn3 then
        other.data.getD
          (sj0 + ((p : Int) / (A.n : Int) - di2) * (other.n : Int) +
            ((p : Int) % (A.n : Int) - dj2)).toNat 0
      else v) A.data 0⟩
  else none

/-- mergeH(m1, m2), StaticMatrix.h lines 1181-1199: a new buffer of
shape m1._m x (m1._n + m2._n); each row is the corresponding row of m1
followed by the corresponding row of m2 (two memcpy per row, filled from
the last row backwards).  ASSERT(m1._m == m2._m). -/
def mergeH (m1 m2 : StaticMatrix T) : StaticMatrix T :=
  ⟨m1.m, m1.n + m2.n,
    (List.range m1.m).flatMap (fun i =>
      ((m1.data.drop (i * m1.n)).take m1.n) ++ ((m2.data.drop (i * m2.n)).take m2.n))⟩

/-- mergeV(m1, m2), StaticMatrix.h lines 1201-1211: a new buffer of
shape (m1._m + m2._m) x m1._n holding the elements of m1 followed by
those of m2 (two contiguous memcpy).  ASSERT(m1._n == m2._n). -/
def mergeV (m1 m2 : StaticMatrix T) : StaticMatrix T :=
  ⟨m1.m + m2.m, m1.n, m1.data ++ m2.data⟩

/-- Left part of a horizontal split of M at the column boundary c: a
fresh M.m x c destination filled from M through cut with all offsets
zero and the default sizes INT_MAX (declaration default, line 72). -/
def cutLeft (M : StaticMatrix T) (c : Nat) : Option (StaticMatrix T) :=
  (mkZero M.m c).cut M 0 0 0 0 INT_MAX INT_MAX

/-- Right part of a horizontal split of M at the column boundary c: a
fresh M.m x (M.n - c) destination filled from M through cut with source
column offset c. -/
def cutRight (M : StaticMatrix T) (c : Nat) : Option (StaticMatrix T) :=
  (mkZero M.m (M.n - c)).cut M 0 0 0 (c : Int) INT_MAX INT_MAX

/-- Top part of a vertical split of M at the row boundary r. -/
def cutTop (M : StaticMatrix T) (r : Nat) : Option (StaticMatrix T) :=
  (mkZero r M.n).cut M 0 0 0 0 INT_MAX INT_MAX

/-- Bottom part of a vertical split of M at the row boundary r: source
row offset r. -/
def cutBottom (M : StaticMatrix T) (r : Nat) : Option (StaticMatrix T) :=
  (mkZero (M.m - r) M.n).cut M 0 0 (r : Int) 0 INT_MAX INT_MAX

/-- Downward pivot scan of pseudoInverse (lines 522-536): starting at
the current diagonal position the scan walks down the active column
(index += _n while it stays inside the buffer), keeping the entry of
largest absolute value with strict improvement.  f r is the column
entry of row r; rows r + 1 .. r + cnt are visited in order. -/
def piScan (f : Nat → T) : Nat → Nat → T × Nat → T × Nat
  | _, 0, st => st
  | r, cnt + 1, st =>
    piScan f (r + 1) cnt (if |f (r + 1)| > st.1 then (|f (r + 1)|, r + 1) else st)

/-- Swap of row tails in pseudoInverse (lines 546-551): columns x..n-1
of rows y and b exchanged.  (In the source the memcpy length _n - x is
an element count used where a byte count is expected, so on a multi-byte
T the real code exchanges only a prefix of the tails; the claim settled
against this model never takes the swap branch, so the model keeps the
evident intent of exchanging the whole tails.) -/
def piSwap (n x y b : Nat) (d : List T) : List T :=
  overwriteIdx (fun p v =>
    if p / n = y ∧ x ≤ p % n then d.getD (b * n + p % n) 0
    else if p / n = b ∧ x ≤ p % n then d.getD (y * n + p % n) 0
    else v) d 0

/-- Scale step of pseudoInverse on the working buffer (lines 557-562):
columns x+1 .. n-1 of the pivot row divided by the pivot value (the
pivot entry itself is left in place). -/
def piScale (n x y : Nat) (piv : T) (d : List T) : List T :=
  overwriteIdx (fun p v => if p / n = y ∧ x < p % n then v / piv else v) d 0

/-- Elimination step of pseudoInverse on the working buffer (lines
568-576): every row r other than the pivot row whose multiplier
temp = data[r, x] is non-zero gets temp times the pivot row subtracted
on columns x+1 .. n-1 (column x itself is not cleared; it is never read
again). -/
def piElim (n x y : Nat) (d : List T) : List T :=
  overwriteIdx (fun p v =>
    if p / n ≠ y ∧ x < p % n ∧ d.getD (p / n * n + x) 0 ≠ 0 then
      v - d.getD (p / n * n + x) 0 * d.getD (y * n + p % n) 0
    else v) d 0

/-- Main elimination loop of pseudoInverse (lines 515-584) on the
working buffer; x is the active column (lindex = y * n + x), y the
active row; every pass advances x by one, so n - x is fuel.  A pivot
candidate not above negligible records the row as rank-deficient and
advances only x (lines 537-544); otherwise swap, scale and eliminate,
then advance both x and y (lines 545-582).  The accumulator V, the
index list and the later result / Lm / Rm blocks never feed back into
the returned buffer (the reconstruction is left unfinished at the TODO
of line 671 and all those intermediates are discarded), so only the
working buffer and y are kept.  Returns the final buffer and the final
y — the rank (line 585). -/
def piLoop (m n : Nat) (negligible : T) : Nat → List T → Nat → Nat → List T × Nat
  | 0, d, _, y => (d, y)
  | fuel + 1, d, x, y =>
    let st := piScan (fun r => d.getD (r * n + x) 0) y (m - 1 - y) (|d.getD (y * n + x) 0|, y)
    if st.1 ≤ negligible then
      (if x + 1 ≥ n then (d, y) else piLoop m n negligible fuel d (x + 1) y)
    else
      let d1 := if st.2 ≠ y then piSwap n x y st.2 d else d
      let piv := d1.getD (y * n + x) 0
      let d2 := if piv ≠ 1 then piScale n x y piv d1 else d1
      let d3 := piElim n x y d2
      if x + 1 ≥ n ∨ y + 1 ≥ m then (d3, y + 1)
      else piLoop m n negligible fuel d3 (x + 1) (y + 1)

/-- pseudoInverse(negligible), StaticMatrix.h lines 497-675: run the
elimination; zero rank zeroes the buffer and swaps the dimensions
(lines 587-596); any other rank returns the working buffer with the
dimensions unchanged, because the reconstruction of the actual
pseudo-inverse from the recorded pivots is left unfinished (TODO at
line 671) and the intermediate result / Lm / Rm blocks are discarded. -/
def pseudoInverse (A : StaticMatrix T) (negligible : T) : StaticMatrix T :=
  let r := piLoop A.m A.n negligible A.n A.data 0 0
  if r.2 = 0 then ⟨A.n, A.m, List.replicate (A.n * A.m) 0⟩
  else ⟨A.m, A.n, r.1⟩

end StaticMatrix

/-! ### The shared copy-on-write handle: Matrix (src/ESN/src/Matrix.h) -/

structure Store (T : Type) where
  cells : List (StaticMatrix T × Nat)

namespace Store

/-- Buffer of the cell a handle points to (the _p->d field). -/
def bufAt [Zero T] (s : Store T) (a : Nat) : StaticMatrix T :=
  (s.cells.getD a default).1

/-- Reference count of the cell a handle points to (the _p->n field). -/
def cntAt [Zero T] (s : Store T) (a : Nat) : Nat :=
  (s.cells.getD a default).2

/-- Heap allocation of a fresh cell new Data(d) with count 1
(Matrix.h line 19). -/
def alloc (s : Store T) (b : StaticMatrix T) : Store T × Nat :=
  (⟨s.cells ++ [(b, 1)]⟩, s.cells.length)

/-- Copy construction Matrix(const Matrix &other), Matrix.h lines 73-81:
the new handle shares the cell and increments its count. -/
def copyHandle (s : Store T) (h : Option Nat) : Store T × Option Nat :=
  match h with
  | none => (s, none)
  | some a => (⟨s.cells.set a (s.bufAt a, s.cntAt a + 1)⟩, some a)

/-- detach(), Matrix.h lines 358-365: if the cell is shared (count > 1),
decrement its count and move this handle onto a fresh cell holding a
deep copy of the buffer (StaticMatrix copy constructor, StaticMatrix.h
lines 89-97); otherwise do nothing. -/
def detach (s : Store T) (h : Option Nat) : Store T × Option Nat :=
  match h with
  | none => (s, none)
  | some a =>
    if 1 < s.cntAt a then
      (⟨(s.cells.set a (s.bufAt a, s.cntAt a - 1)) ++ [(s.bufAt a, 1)]⟩,
        some s.cells.length)
    else (s, h)

/-- Read access through the const operator()(i, j), Matrix.h lines
123-127 (no detach). -/
def readElem (s : Store T) (h : Option Nat) (i j : Nat) : T :=
  match h with
  | none => 0
  | some a => (s.bufAt a).at' i j

/-- Element write through the non-const operator()(i, j), Matrix.h lines
129-134: detach first, then store through the returned reference. -/
def writeElem (s : Store T) (h : Option Nat) (i j : Nat) (v : T) :
    Store T × Option Nat :=
  match s.detach h with
  | (s1, none) => (s1, none)
  | (s1, some a) =>
    (⟨s1.cells.set a ((s1.bufAt a).setAt i j v, s1.cntAt a)⟩, some a)

/-- Sized zero construction Matrix(int m, int n), Matrix.h lines 93-101:
positive sizes allocate a zero-filled buffer, any other size silently
yields the NULL handle. -/
def mkSized (s : Store T) (m n : Int) : Store T × Option Nat :=
  if 0 < m ∧ 0 < n then
    ((s.alloc (StaticMatrix.mkZero m.toNat n.toNat)).1,
      some (s.alloc (StaticMatrix.mkZero m.toNat n.toNat)).2)
  else (s, none)

/-- Sized fill construction Matrix(int m, int n, T value), Matrix.h
lines 103-111: same shape guard as the zero-fill constructor. -/
def mkSizedVal (s : Store T) (m n : Int) (value : T) : Store T × Option Nat :=
  if 0 < m ∧ 0 < n then
    ((s.alloc (StaticMatrix.mkVal m.toNat n.toNat value)).1,
      some (s.alloc (StaticMatrix.mkVal m.toNat n.toNat value)).2)
  else (s, none)

/-- Matrix::partialProduct(m1, m2, i1, i2, j1, j2), Matrix.h lines
261-268: asserts the three handles non-null, detaches self, then
asserts that self shares no cell with m1 or m2 (comment: avoid doing
nasty stuff) and runs the kernel on the buffers.  The assertion
failures are modelled as none. -/
def partialProductHandle (s : Store T) (hS h1 h2 : Option Nat) (i1 i2 j1 j2 : Nat) :
    Option (Store T × Option Nat) :=
  match hS, h1, h2 with
  | some a, some b, some c =>
    match s.detach (some a) with
    | (s1, some a1) =>
      if a1 = b ∨ a1 = c then none
      else some (⟨s1.cells.set a1
          ((s1.bufAt a1).partialProduct (s1.bufAt b) (s1.bufAt c) i1 i2 j1 j2,
            s1.cntAt a1)⟩, some a1)
    | (_, none) => none
  | _, _, _ => none

/-- Matrix::operator/=(const Matrix &other), Matrix.h lines 288-307:
with both handles non-null, if they are literally the same cell
(_p == other._p) the old cell is dereferenced and a freshly built
identity (value constructor with 0, then addIdentity) becomes the
result on a fresh cell; otherwise self detaches and the kernel division
runs on the two buffers. -/
def divEqHandle (s : Store T) (hA hB : Option Nat) : Store T × Option Nat :=
  match hA, hB with
  | some a, some b =>
    if a = b then
      (⟨(s.cells.set a (s.bufAt a, s.cntAt a - 1)) ++
          [(((StaticMatrix.mkVal (s.bufAt a).m (s.bufAt a).n 0).addIdentity : StaticMatrix T), 1)]⟩,
        some (s.cells.set a (s.bufAt a, s.cntAt a - 1)).length)
    else
      match s.detach (some a) with
      | (s1, some a1) =>
        (⟨s1.cells.set a1 ((s1.bufAt a1).divEq (s1.bufAt b), s1.cntAt a1)⟩, some a1)
      | (s1, none) => (s1, none)
  | _, _ => (s, hA)

end Store

/-- View of a row-major n x n list as a Mathlib matrix, used to state
invertibility of an input and the identity shape of a result. -/
def toMat (n : Nat) (d : List T) : Matrix (Fin n) (Fin n) T :=
  Matrix.of (fun i j => d.getD (i.1 * n + j.1) 0)

/-- Proof support (not part of the source model): the simultaneous row
elimination of one Gauss–Jordan column step expressed as a fold of
single-row updates, used to track the determinant through the
elimination stage of operator/=. -/
def elimRows (n : Nat) (k : Fin n) (L : List (Fin n))
    (M : Matrix (Fin n) (Fin n) T) : Matrix (Fin n) (Fin n) T :=
  L.foldl (fun N r => if r = k then N else N.updateRow r (N r - N r k • N k)) M

/-! ### Helper lemmas -/

/-- Row-major index arithmetic: the row of flat position i * n + j. -/
theorem idx_div {n : Nat} (i : Nat) {j : Nat} (hj : j < n) : (i * n + j) / n = i := by
  have hn : 0 < n := Nat.lt_of_le_of_lt (Nat.zero_le _) hj
  rw [Nat.add_comm, Nat.add_mul_div_right _ _ hn, Nat.div_eq_of_lt hj, Nat.zero_add]

/-- Row-major index arithmetic: the column of flat position i * n + j. -/
theorem idx_mod {n : Nat} (i : Nat) {j : Nat} (hj : j < n) : (i * n + j) % n = j := by
  rw [Nat.add_comm, Nat.add_mul_mod_self_right, Nat.mod_eq_of_lt hj]

/-- Flat bound for a row-major position. -/
theorem idx_lt {m n i j : Nat} (hi : i < m) (hj : j < n) : i * n + j < m * n :=
  calc i * n + j < i * n + n := Nat.add_lt_add_left hj _
    _ = (i + 1) * n := (Nat.succ_mul i n).symm
    _ ≤ m * n := Nat.mul_le_mul_right n hi

/-- getD of a list built from a function over a range of indices. -/
theorem getD_rangeMap {α : Type} (g : Nat → α) (len p : Nat) (d : α) :
    ((List.range len).map g).getD p d = if p < len then g p else d := by
  rcases Nat.lt_or_ge p len with h | h
  · rw [List.getD_eq_getElem?_getD, List.getElem?_map, List.getElem?_range h]
    simp [h]
  · rw [List.getD_eq_getElem?_getD, List.getElem?_map,
      List.getElem?_eq_none (by simpa using h)]
    simp [Nat.not_lt.mpr h]

theorem length_overwriteIdx {α : Type} (f : Nat → α → α) (l : List α) (d : α) :
    (overwriteIdx f l d).length = l.length := by
  simp [overwriteIdx]

theorem getD_overwriteIdx {α : Type} (f : Nat → α → α) (l : List α) (d : α) (p : Nat) :
    (overwriteIdx f l d).getD p d = if p < l.length then f p (l.getD p d) else d := by
  unfold overwriteIdx
  rw [getD_rangeMap]

theorem getD_of_ge_length {α : Type} {l : List α} {p : Nat} (h : l.length ≤ p) (d : α) :
    l.getD p d = d := by
  rw [List.getD_eq_getElem?_getD, List.getElem?_eq_none (by simpa using h)]
  rfl

theorem getD_set_self {α : Type} (l : List α) {i : Nat} (v d : α) (h : i < l.length) :
    (l.set i v).getD i d = v := by
  rw [List.getD_eq_getElem?_getD, List.getElem?_set_self (by simpa using h)]
  rfl

theorem getD_set_ne {α : Type} (l : List α) {i j : Nat} (v d : α) (h : i ≠ j) :
    (l.set i v).getD j d = l.getD j d := by
  rw [List.getD_eq_getElem?_getD, List.getElem?_set_ne h, ← List.getD_eq_getElem?_getD]

theorem getD_append_left {α : Type} (l l' : List α) {i : Nat} (h : i < l.length) (d : α) :
    (l ++ l').getD i d = l.getD i d := by
  rw [List.getD_eq_getElem?_getD, List.getElem?_append_left h, ← List.getD_eq_getElem?_getD]

theorem getD_append_self {α : Type} (l : List α) (x d : α) :
    (l ++ [x]).getD l.length d = x := by
  rw [List.getD_eq_getElem?_getD]
  rw [List.getElem?_append_right (Nat.le_refl _)]
  simp

theorem StaticMatrix.at'_setAt_self (A : StaticMatrix T) {i j : Nat}
    (hlen : A.data.length = A.m * A.n) (hi : i < A.m) (hj : j < A.n) (v : T) :
    (A.setAt i j v).at' i j = v := by
  unfold StaticMatrix.setAt StaticMatrix.at'
  exact getD_set_self _ _ _ (by rw [hlen]; exact idx_lt hi hj)

theorem Store.bufAt_mk (cl : List (StaticMatrix T × Nat)) (a : Nat) :
    Store.bufAt ⟨cl⟩ a = (cl.getD a default).1 := rfl

theorem Store.cntAt_mk (cl : List (StaticMatrix T × Nat)) (a : Nat) :
    Store.cntAt ⟨cl⟩ a = (cl.getD a default).2 := rfl

theorem Store.readElem_some (s : Store T) (a i j : Nat) :
    s.readElem (some a) i j = (s.bufAt a).at' i j := rfl

/-! ### Claim theorems (first group) -/

open StaticMatrix

/-- C10.  Scalar division A /= c is exactly scalar multiplication by the
reciprocal: it is defined as A *= (1 / c), every element ends up
multiplied by the single value 1 / c, and no check rejects c = 0 (the
equation below holds for every c, the zero included). -/
theorem scalar_division_is_reciprocal_multiplication (A : StaticMatrix ℚ) (c : ℚ) :
    A.divScalar c = A.mulScalar (1 / c) ∧
    ∀ i j : Nat, (A.divScalar c).at' i j = A.at' i j * (1 / c) := by
  refine ⟨rfl, fun i j => ?_⟩
  unfold StaticMatrix.divScalar StaticMatrix.mulScalar StaticMatrix.at'
  simp only
  rw [List.getD_eq_getElem?_getD, List.getElem?_map]
  rcases h : A.data[i * A.n + j]? with _ | v
  · simp [List.getD_eq_getElem?_getD, h]
  · simp [List.getD_eq_getElem?_getD, h]

/-- C3 (code bug).  Evaluation of the shape check of += and -= at the
mismatched pair self : 2 x 5, other : 2 x 3: the shapes differ (in the
column count), yet the disjunctive assertion
ASSERT((_m == other._m) || (_n == other._n)) accepts the pair, so the
check does not reject every mismatched pair as the claim states.  (The
element loop then reads other._data past its end, since other holds only
6 elements while self holds 10.) -/
theorem plusEq_shape_check_accepts_mismatch :
    let A : StaticMatrix ℚ := StaticMatrix.mkZero 2 5
    let B : StaticMatrix ℚ := StaticMatrix.mkZero 2 3
    (A.n ≠ B.n) ∧ plusEqCheck A B = true ∧ minusEqCheck A B = true := by
  refine ⟨by decide, rfl, rfl⟩

/-- C1 (code bug).  Evaluation of pseudoInverse at the full column-rank
2 x 1 matrix A = [[1], [1]] with negligible = 0: the elimination finds
rank 1, so the unfinished function (reconstruction left at the TODO of
StaticMatrix.h line 671) returns the working buffer with the dimensions
still 2 x 1 — on this input literally A itself.  A Moore–Penrose
pseudo-inverse of a 2 x 1 matrix must be 1 x 2 (here [[1/2, 1/2]]);
with a 2 x 1 result the product A * pseudoInverse(A) does not even meet
the shape precondition _n == other._m of the product kernel
(getProduct, line 796), so neither defining identity can hold. -/
theorem pseudoInverse_unfinished_at_2x1 :
    (StaticMatrix.pseudoInverse (⟨2, 1, [1, 1]⟩ : StaticMatrix ℚ) 0).m = 2 ∧
    (StaticMatrix.pseudoInverse (⟨2, 1, [1, 1]⟩ : StaticMatrix ℚ) 0).n = 1 ∧
    (StaticMatrix.pseudoInverse (⟨2, 1, [1, 1]⟩ : StaticMatrix ℚ) 0).data = [1, 1] ∧
    (⟨2, 1, [1, 1]⟩ : StaticMatrix ℚ).n ≠
      (StaticMatrix.pseudoInverse (⟨2, 1, [1, 1]⟩ : StaticMatrix ℚ) 0).m := by
  refine ⟨by decide, by decide, by decide, by decide⟩

theorem StaticMatrix.at'_getProduct (A B : StaticMatrix T) {i j : Nat}
    (hi : i < A.m) (hj : j < B.n) :
    (A.getProduct B).at' i j = StaticMatrix.ppEntry A B B.n i j := by
  show ((List.range (A.m * B.n)).map
      (fun p => StaticMatrix.ppEntry A B B.n (p / B.n) (p % B.n))).getD (i * B.n + j) 0 = _
  rw [getD_rangeMap]
  rw [if_pos (idx_lt hi hj)]
  rw [idx_div i hj, idx_mod i hj]

theorem StaticMatrix.at'_partialProduct (A m1 m2 : StaticMatrix T) (i1 i2 j1 j2 : Nat)
    (hlen : A.data.length = A.m * A.n) {i j : Nat} (hi : i < A.m) (hj : j < A.n) :
    (A.partialProduct m1 m2 i1 i2 j1 j2).at' i j =
      if i1 ≤ i ∧ i ≤ i2 ∧ j1 ≤ j ∧ j ≤ j2 then StaticMatrix.ppEntry m1 m2 A.n i j
      else A.at' i j := by
  show (overwriteIdx _ A.data 0).getD (i * A.n + j) 0 = _
  rw [getD_overwriteIdx]
  rw [if_pos (by rw [hlen]; exact idx_lt hi hj)]
  simp only [idx_div i hj, idx_mod i hj]
  rfl

/-- C6.  partialProduct with self pre-sized to m1.rows x m2.cols and
valid block bounds sets exactly the entries of rows [i1, i2] and columns
[j1, j2] of self to the corresponding entries of m1 * m2 (getProduct),
leaves every entry outside the block unchanged — and, at the handle
level, behaves correctly when self shares its cell with m1 (or with m2,
the address c being unconstrained): the detach at Matrix.h line 264
moves self onto a fresh clone first, so the kernel runs on the original
buffer values and the shared operand is not disturbed. -/
theorem partialProduct_block_frame_and_aliasing
    (A m1 m2 : StaticMatrix ℚ) (i1 i2 j1 j2 : Nat)
    (hlen : A.data.length = A.m * A.n)
    (hm : A.m = m1.m) (_hinner : m1.n = m2.m) (hn : m2.n = A.n)
    (_hi12 : i1 ≤ i2) (_hi2 : i2 < A.m) (_hj12 : j1 ≤ j2) (_hj2 : j2 < A.n) :
    (∀ i j, i < A.m → j < A.n →
      (A.partialProduct m1 m2 i1 i2 j1 j2).at' i j =
        if i1 ≤ i ∧ i ≤ i2 ∧ j1 ≤ j ∧ j ≤ j2 then (m1.getProduct m2).at' i j
        else A.at' i j) ∧
    (∀ (s : Store ℚ) (a c : Nat), a < s.cells.length → c < s.cells.length →
      2 ≤ s.cntAt a →
      ∃ s2 : Store ℚ,
        s.partialProductHandle (some a) (some a) (some c) i1 i2 j1 j2 =
          some (s2, some s.cells.length) ∧
        s2.bufAt s.cells.length =
          (s.bufAt a).partialProduct (s.bufAt a) (s.bufAt c) i1 i2 j1 j2 ∧
        s2.bufAt a = s.bufAt a ∧ s2.bufAt c = s.bufAt c) := by
  constructor
  · intro i j hi hj
    rw [StaticMatrix.at'_partialProduct A m1 m2 i1 i2 j1 j2 hlen hi hj]
    by_cases hblk : i1 ≤ i ∧ i ≤ i2 ∧ j1 ≤ j ∧ j ≤ j2
    · rw [if_pos hblk, if_pos hblk]
      rw [StaticMatrix.at'_getProduct m1 m2 (by rw [← hm]; exact hi) (by rw [hn]; exact hj)]
      rw [hn]
    · rw [if_neg hblk, if_neg hblk]
  · intro s a c hac hcc hcnt
    set s1 : Store ℚ :=
      ⟨(s.cells.set a (s.bufAt a, s.cntAt a - 1)) ++ [(s.bufAt a, 1)]⟩ with hs1
    have hdet : s.detach (some a) = (s1, some s.cells.length) := by
      show (if 1 < s.cntAt a then
          ((⟨(s.cells.set a (s.bufAt a, s.cntAt a - 1)) ++ [(s.bufAt a, 1)]⟩ : Store ℚ),
            some s.cells.length)
        else (s, some a)) = (s1, some s.cells.length)
      rw [if_pos (by omega)]
    have hsetlen : (s.cells.set a (s.bufAt a, s.cntAt a - 1)).length = s.cells.length := by
      simp
    have hs1len : s1.cells.length = s.cells.length + 1 := by
      rw [hs1]; simp only [List.length_append, hsetlen, List.length_singleton]
    have hs1bufL : s1.bufAt s.cells.length = s.bufAt a := by
      rw [hs1, Store.bufAt_mk,
        show s.cells.length = (s.cells.set a (s.bufAt a, s.cntAt a - 1)).length from
          hsetlen.symm,
        getD_append_self]
    have hkeep : ∀ e, e < s.cells.length → s1.bufAt e = s.bufAt e := by
      intro e he
      rw [hs1, Store.bufAt_mk, getD_append_left _ _ (by rw [hsetlen]; exact he)]
      by_cases hea : e = a
      · subst hea
        rw [getD_set_self _ _ _ he]
      · rw [getD_set_ne _ _ _ (fun hh => hea hh.symm)]
        rfl
    have hguard : ¬ (s.cells.length = a ∨ s.cells.length = c) := by
      intro hor
      rcases hor with hla | hlc
      · omega
      · omega
    set s2 : Store ℚ :=
      ⟨s1.cells.set s.cells.length
          ((s1.bufAt s.cells.length).partialProduct (s1.bufAt a) (s1.bufAt c) i1 i2 j1 j2,
            s1.cntAt s.cells.length)⟩ with hs2
    refine ⟨s2, ?_, ?_, ?_, ?_⟩
    · unfold Store.partialProductHandle
      simp only [hdet]
      rw [if_neg hguard]
    · rw [hs2, Store.bufAt_mk, getD_set_self _ _ _ (by rw [hs1len]; omega)]
      show (s1.bufAt s.cells.length).partialProduct (s1.bufAt a) (s1.bufAt c) i1 i2 j1 j2 = _
      rw [hs1bufL, hkeep a hac, hkeep c hcc]
    · rw [hs2, Store.bufAt_mk, getD_set_ne _ _ _ (by omega)]
      exact hkeep a hac
    · rw [hs2, Store.bufAt_mk, getD_set_ne _ _ _ (by omega)]
      exact hkeep c hcc

/-- C6 witness: the theorem applied to a 2 x 2 zero destination and the
block limited to row 0, columns 0..1, read back at the untouched entry
(1, 1): the frame part of the conclusion, with every hypothesis checked
on the concrete shapes. -/
theorem partialProduct_block_frame_and_aliasing_witness :
    ((StaticMatrix.mkZero 2 2 : StaticMatrix ℚ).partialProduct
        ⟨2, 2, [1, 0, 0, 1]⟩ ⟨2, 2, [1, 2, 3, 4]⟩ 0 0 0 1).at' 1 1 =
      if 0 ≤ 1 ∧ 1 ≤ 0 ∧ 0 ≤ 1 ∧ 1 ≤ 1 then
        ((⟨2, 2, [1, 0, 0, 1]⟩ : StaticMatrix ℚ).getProduct ⟨2, 2, [1, 2, 3, 4]⟩).at' 1 1
      else (StaticMatrix.mkZero 2 2 : StaticMatrix ℚ).at' 1 1 :=
  (partialProduct_block_frame_and_aliasing (StaticMatrix.mkZero 2 2)
    ⟨2, 2, [1, 0, 0, 1]⟩ ⟨2, 2, [1, 2, 3, 4]⟩ 0 0 0 1
    (by decide) (by decide) (by decide) (by decide)
    (by decide) (by decide) (by decide) (by decide)).1 1 1 (by decide) (by decide)

/-- C4 (code bug).  Evaluation of cut at the scenario of the claim: a
3 x 3 zero destination, a 2 x 2 source [[1, 2], [3, 4]], destination
row offset di = -1, dj = si = sj = 0 and the default sizes INT_MAX.
The absorption of the negative offset (StaticMatrix.h line 725) does
si += di, moving the source row offset DOWN to -1; after clamping, the
row loop starts its memcpy at source flat index -2, a read before the
buffer — undefined behavior, modelled as none — instead of advancing
the source offset to row 1 and copying that single row into destination
row 0 as the claim describes. -/
theorem cut_negative_di_reads_before_buffer :
    (StaticMatrix.mkZero 3 3 : StaticMatrix ℚ).cut ⟨2, 2, [1, 2, 3, 4]⟩
      (-1) 0 0 0 INT_MAX INT_MAX = none := by
  rfl

/-- Auxiliary for C8: a cut whose source region lies fully inside the
source and exactly covers the destination extracts that region: the call
succeeds and every destination position p receives the source element of
row si + p / dn, column sj + p % dn. -/
theorem cut_extract (M : StaticMatrix T) (dm dn si sj : Nat)
    (hmle : (M.m : Int) ≤ INT_MAX) (hnle : (M.n : Int) ≤ INT_MAX)
    (hlen : M.data.length = M.m * M.n)
    (hdm : 0 < dm) (hdn : 0 < dn) (hrow : si + dm ≤ M.m) (hcol : sj + dn ≤ M.n) :
    (StaticMatrix.mkZero dm dn : StaticMatrix T).cut M 0 0 (si : Int) (sj : Int)
        INT_MAX INT_MAX =
      some ⟨dm, dn, (List.range (dm * dn)).map
        (fun p => M.data.getD ((si + p / dn) * M.n + (sj + p % dn)) 0)⟩ := by
  have hr : (si : Int) + (dm : Int) ≤ (M.m : Int) := by exact_mod_cast hrow
  have hc : (sj : Int) + (dn : Int) ≤ (M.n : Int) := by exact_mod_cast hcol
  have hnn : (0 : Int) ≤ (M.n : Int) := Int.natCast_nonneg M.n
  have hdm' : (0 : Int) < (dm : Int) := by exact_mod_cast hdm
  have hdn' : (0 : Int) < (dn : Int) := by exact_mod_cast hdn
  have h00 : ¬ ((0 : Int) < 0) := by omega
  unfold StaticMatrix.cut
  rw [if_neg (by omega)]
  simp only [if_neg h00, StaticMatrix.mkZero]
  have hsn3 : min (min INT_MAX ((M.n : Int) - (sj : Int))) ((dn : Int) - 0) = (dn : Int) := by
    omega
  have hsm3 : min (min INT_MAX ((M.m : Int) - (si : Int))) ((dm : Int) - 0) = (dm : Int) := by
    omega
  rw [hsn3]
  rw [if_neg (by omega)]
  rw [hsm3]
  rw [if_neg (by omega)]
  have hguard : 0 ≤ (sj : Int) + (si : Int) * (M.n : Int) ∧
      (sj : Int) + (si : Int) * (M.n : Int) + ((dm : Int) - 1) * (M.n : Int) + (dn : Int) ≤
        (M.data.length : Int) := by
    constructor
    · positivity
    · have hlen' : (M.data.length : Int) = (M.m : Int) * (M.n : Int) := by
        rw [hlen]; push_cast; ring
      have key : (si : Int) * (M.n : Int) + (dm : Int) * (M.n : Int) ≤
          (M.m : Int) * (M.n : Int) := by
        have h0 := mul_le_mul_of_nonneg_right hr hnn
        rw [add_mul] at h0
        exact h0
      rw [hlen']
      ring_nf
      ring_nf at key
      linarith [key, hc, hnn]
  rw [if_pos hguard]
  refine congrArg some (congrArg (StaticMatrix.mk dm dn) ?_)
  unfold overwriteIdx
  simp only [List.length_replicate]
  refine List.map_congr_left ?_
  intro p hp
  rw [List.mem_range] at hp
  have hpd : p / dn < dm := Nat.div_lt_of_lt_mul (by rw [Nat.mul_comm]; exact hp)
  have hpm : p % dn < dn := Nat.mod_lt _ hdn
  have hdivcast : (p : Int) / (dn : Int) = ((p / dn : Nat) : Int) := (Int.ofNat_ediv p dn).symm
  have hmodcast : (p : Int) % (dn : Int) = ((p % dn : Nat) : Int) := (Int.ofNat_emod p dn).symm
  rw [if_pos ?hin]
  case hin =>
    refine ⟨?_, ?_, ?_, ?_⟩
    · rw [hdivcast]; positivity
    · rw [hdivcast]
      have : ((p / dn : Nat) : Int) < (dm : Int) := by exact_mod_cast hpd
      omega
    · rw [hmodcast]; positivity
    · rw [hmodcast]
      have : ((p % dn : Nat) : Int) < (dn : Int) := by exact_mod_cast hpm
      omega
  have hidx : ((sj : Int) + (si : Int) * (M.n : Int) +
      ((p : Int) / (dn : Int) - 0) * (M.n : Int) + ((p : Int) % (dn : Int) - 0)).toNat =
      (si + p / dn) * M.n + (sj + p % dn) := by
    rw [hdivcast, hmodcast]
    have h1 : ((sj : Int) + (si : Int) * (M.n : Int) +
        (((p / dn : Nat) : Int) - 0) * (M.n : Int) + (((p % dn : Nat) : Int) - 0)) =
        (((si + p / dn) * M.n + (sj + p % dn) : Nat) : Int) := by
      push_cast
      ring
    rw [h1, Int.toNat_natCast]
  rw [hidx]

theorem getElem?_rangeMap {α : Type} (g : Nat → α) (len p : Nat) :
    ((List.range len).map g)[p]? = if p < len then some (g p) else none := by
  rcases Nat.lt_or_ge p len with h | h
  · rw [List.getElem?_map, List.getElem?_range h]
    simp [h]
  · rw [List.getElem?_map, List.getElem?_eq_none (by simpa using h)]
    simp [Nat.not_lt.mpr h]

/-- A take of a drop of a range-map list is the range-map of the
shifted function. -/
theorem take_drop_rangeMap {α : Type} (g : Nat → α) (N k c : Nat) (h : k + c ≤ N) :
    (((List.range N).map g).drop k).take c = (List.range c).map (fun t => g (k + t)) := by
  apply List.ext_getElem?
  intro t
  rcases Nat.lt_or_ge t c with ht | ht
  · rw [List.getElem?_take_of_lt ht, List.getElem?_drop, getElem?_rangeMap, getElem?_rangeMap]
    rw [if_pos ht, if_pos (by omega)]
  · rw [List.getElem?_eq_none
      (by rw [List.length_take, List.length_drop, List.length_map, List.length_range]; omega)]
    rw [List.getElem?_eq_none (by rw [List.length_map, List.length_range]; omega)]

/-- A take of a drop of any list is the range-map of its getD reads,
provided the segment lies inside the list. -/
theorem take_drop_as_rangeMap {α : Type} (l : List α) (k c : Nat) (d : α)
    (h : k + c ≤ l.length) :
    (l.drop k).take c = (List.range c).map (fun t => l.getD (k + t) d) := by
  apply List.ext_getElem?
  intro t
  rcases Nat.lt_or_ge t c with ht | ht
  · rw [List.getElem?_take_of_lt ht, List.getElem?_drop, getElem?_rangeMap, if_pos ht]
    rw [List.getElem?_eq_getElem (by omega)]
    rw [List.getD_eq_getElem _ _ (by omega)]
  · rw [List.getElem?_eq_none
      (by rw [List.length_take, List.length_drop]; omega)]
    rw [List.getElem?_eq_none (by rw [List.length_map, List.length_range]; omega)]

/-- Concatenating the n-element rows of a list of length m * n gives the
list back. -/
theorem rows_concat {α : Type} : ∀ (m n : Nat) (l : List α), l.length = m * n →
    (List.range m).flatMap (fun i => (l.drop (i * n)).take n) = l := by
  intro m
  induction m with
  | zero =>
    intro n l h
    simp only [Nat.zero_mul] at h
    simp [List.eq_nil_of_length_eq_zero h]
  | succ m ih =>
    intro n l h
    rw [List.range_succ_eq_map]
    rw [List.flatMap_cons]
    have hdrop : (List.range m).flatMap
        (fun i => ((l.drop n).drop (i * n)).take n) = l.drop n := by
      refine ih n (l.drop n) ?_
      rw [List.length_drop, h]
      have : (m + 1) * n = m * n + n := by ring
      omega
    have hmapstep : (List.map Nat.succ (List.range m)).flatMap
        (fun i => (l.drop (i * n)).take n) =
        (List.range m).flatMap (fun i => ((l.drop n).drop (i * n)).take n) := by
      rw [List.flatMap_map]
      congr 1
      funext i
      rw [List.drop_drop]
      congr 1
      rw [Nat.succ_mul, Nat.add_comm]
    rw [hmapstep, hdrop]
    simp only [Nat.zero_mul, List.drop_zero]
    exact List.take_append_drop n l

/-- Splitting a range-map over a sum of lengths. -/
theorem rangeMap_split {α : Type} (h : Nat → α) (a b : Nat) :
    (List.range (a + b)).map h =
      (List.range a).map h ++ (List.range b).map (fun t => h (a + t)) := by
  rw [List.range_add, List.map_append, List.map_map]
  rfl

/-- C8.  Split/merge round trip.  For every well-formed matrix M (with a
shape that fits a C int) and every interior column boundary c, cutting
the left part (columns [0, c)) and the right part (columns [c, n)) via
cut succeeds and merging them with mergeH reconstructs M exactly; and
for every interior row boundary r, cutting top and bottom and merging
them with mergeV reconstructs M exactly. -/
theorem split_merge_roundtrip (M : StaticMatrix ℚ) (hwf : M.WF)
    (hmle : (M.m : Int) ≤ INT_MAX) (hnle : (M.n : Int) ≤ INT_MAX) :
    (∀ c, 0 < c → c < M.n →
      ∃ L R, M.cutLeft c = some L ∧ M.cutRight c = some R ∧
        StaticMatrix.mergeH L R = M) ∧
    (∀ r, 0 < r → r < M.m →
      ∃ Tp Bt, M.cutTop r = some Tp ∧ M.cutBottom r = some Bt ∧
        StaticMatrix.mergeV Tp Bt = M) := by
  obtain ⟨hm0, hn0, hlen⟩ := hwf
  obtain ⟨Mm, Mn, Md⟩ := M
  simp only at hm0 hn0 hlen hmle hnle
  constructor
  · -- horizontal: left columns [0, c), right columns [c, Mn)
    intro c hc0 hcn
    simp only at hc0 hcn
    have hL := cut_extract ⟨Mm, Mn, Md⟩ Mm c 0 0 hmle hnle hlen hm0 hc0
      (by dsimp only; omega) (by dsimp only; omega)
    have hR := cut_extract ⟨Mm, Mn, Md⟩ Mm (Mn - c) 0 c hmle hnle hlen hm0
      (by omega) (by dsimp only; omega) (by dsimp only; omega)
    refine ⟨_, _, hL, hR, ?_⟩
    show StaticMatrix.mk Mm (c + (Mn - c))
      ((List.range Mm).flatMap (fun i =>
        ((((List.range (Mm * c)).map
            (fun p => Md.getD ((0 + p / c) * Mn + (0 + p % c)) 0)).drop (i * c)).take c) ++
        ((((List.range (Mm * (Mn - c))).map
            (fun p => Md.getD ((0 + p / (Mn - c)) * Mn + (c + p % (Mn - c))) 0)).drop
              (i * (Mn - c))).take (Mn - c)))) = StaticMatrix.mk Mm Mn Md
    refine (StaticMatrix.mk.injEq _ _ _ _ _ _).mpr ⟨rfl, by omega, ?_⟩
    have hrow : ∀ i : Nat,
        ((((List.range (Mm * c)).map
            (fun p => Md.getD ((0 + p / c) * Mn + (0 + p % c)) 0)).drop (i * c)).take c) ++
        ((((List.range (Mm * (Mn - c))).map
            (fun p => Md.getD ((0 + p / (Mn - c)) * Mn + (c + p % (Mn - c))) 0)).drop
              (i * (Mn - c))).take (Mn - c)) =
        (Md.drop (i * Mn)).take Mn := by
      intro i
      rcases Nat.lt_or_ge i Mm with hi | hi
      · rw [take_drop_rangeMap _ _ _ _ (by
          calc i * c + c = (i + 1) * c := by ring
            _ ≤ Mm * c := Nat.mul_le_mul_right c hi)]
        rw [take_drop_rangeMap _ _ _ _ (by
          calc i * (Mn - c) + (Mn - c) = (i + 1) * (Mn - c) := by ring
            _ ≤ Mm * (Mn - c) := Nat.mul_le_mul_right (Mn - c) hi)]
        rw [take_drop_as_rangeMap Md (i * Mn) Mn 0 (by
          rw [hlen]
          calc i * Mn + Mn = (i + 1) * Mn := by ring
            _ ≤ Mm * Mn := Nat.mul_le_mul_right Mn hi)]
        have hsplit := rangeMap_split (fun t => Md.getD (i * Mn + t) 0) c (Mn - c)
        rw [show c + (Mn - c) = Mn from by omega] at hsplit
        rw [hsplit]
        congr 1
        · refine List.map_congr_left ?_
          intro t ht
          rw [List.mem_range] at ht
          rw [idx_div i ht, idx_mod i ht]
          simp
        · refine List.map_congr_left ?_
          intro t ht
          rw [List.mem_range] at ht
          rw [idx_div i ht, idx_mod i ht]
          simp
      · have hdL : ((List.range (Mm * c)).map
            (fun p => Md.getD ((0 + p / c) * Mn + (0 + p % c)) 0)).drop (i * c) = [] := by
          refine List.drop_eq_nil_of_le ?_
          rw [List.length_map, List.length_range]
          exact Nat.mul_le_mul_right c hi
        have hdR : ((List.range (Mm * (Mn - c))).map
            (fun p => Md.getD ((0 + p / (Mn - c)) * Mn + (c + p % (Mn - c))) 0)).drop
              (i * (Mn - c)) = [] := by
          refine List.drop_eq_nil_of_le ?_
          rw [List.length_map, List.length_range]
          exact Nat.mul_le_mul_right (Mn - c) hi
        have hdM : Md.drop (i * Mn) = [] := by
          refine List.drop_eq_nil_of_le ?_
          rw [hlen]
          exact Nat.mul_le_mul_right Mn hi
        rw [hdL, hdR, hdM]
        simp
    calc (List.range Mm).flatMap (fun i =>
          ((((List.range (Mm * c)).map
              (fun p => Md.getD ((0 + p / c) * Mn + (0 + p % c)) 0)).drop (i * c)).take c) ++
          ((((List.range (Mm * (Mn - c))).map
              (fun p => Md.getD ((0 + p / (Mn - c)) * Mn + (c + p % (Mn - c))) 0)).drop
                (i * (Mn - c))).take (Mn - c)))
        = (List.range Mm).flatMap (fun i => (Md.drop (i * Mn)).take Mn) := by
          congr 1
          funext i
          exact hrow i
      _ = Md := rows_concat Mm Mn Md hlen
  · -- vertical: top rows [0, r), bottom rows [r, Mm)
    intro r hr0 hrm
    simp only at hr0 hrm
    have hT := cut_extract ⟨Mm, Mn, Md⟩ r Mn 0 0 hmle hnle hlen hr0 hn0
      (by dsimp only; omega) (by dsimp only; omega)
    have hB := cut_extract ⟨Mm, Mn, Md⟩ (Mm - r) Mn r 0 hmle hnle hlen
      (by omega) hn0 (by dsimp only; omega) (by dsimp only; omega)
    refine ⟨_, _, hT, hB, ?_⟩
    show StaticMatrix.mk (r + (Mm - r)) Mn
      (((List.range (r * Mn)).map
          (fun p => Md.getD ((0 + p / Mn) * Mn + (0 + p % Mn)) 0)) ++
        ((List.range ((Mm - r) * Mn)).map
          (fun p => Md.getD ((r + p / Mn) * Mn + (0 + p % Mn)) 0))) = StaticMatrix.mk Mm Mn Md
    refine (StaticMatrix.mk.injEq _ _ _ _ _ _).mpr ⟨by omega, rfl, ?_⟩
    have hTd : (List.range (r * Mn)).map
        (fun p => Md.getD ((0 + p / Mn) * Mn + (0 + p % Mn)) 0) = Md.take (r * Mn) := by
      have h1 : Md.take (r * Mn) = (Md.drop 0).take (r * Mn) := by rw [List.drop_zero]
      have hseg : 0 + r * Mn ≤ Md.length := by
        rw [hlen]
        have hx : r * Mn ≤ Mm * Mn := Nat.mul_le_mul_right Mn (by omega)
        omega
      rw [h1, take_drop_as_rangeMap Md 0 (r * Mn) 0 hseg]
      refine List.map_congr_left ?_
      intro p hp
      rw [List.mem_range] at hp
      have hx : (0 + p / Mn) * Mn + (0 + p % Mn) = 0 + p := by
        simp only [Nat.zero_add]
        exact Nat.div_add_mod' p Mn
      rw [hx]
    have hBd : (List.range ((Mm - r) * Mn)).map
        (fun p => Md.getD ((r + p / Mn) * Mn + (0 + p % Mn)) 0) = Md.drop (r * Mn) := by
      have h2 : Md.drop (r * Mn) = (Md.drop (r * Mn)).take ((Mm - r) * Mn) := by
        refine (List.take_of_length_le ?_).symm
        rw [List.length_drop, hlen]
        calc Mm * Mn - r * Mn = (Mm - r) * Mn := by rw [Nat.sub_mul]
          _ ≤ (Mm - r) * Mn := Nat.le_refl _
      rw [h2, take_drop_as_rangeMap Md (r * Mn) ((Mm - r) * Mn) 0 (by
        rw [hlen, ← Nat.add_mul]
        exact Nat.mul_le_mul_right Mn (by omega))]
      refine List.map_congr_left ?_
      intro p hp
      rw [List.mem_range] at hp
      have hx : (r + p / Mn) * Mn + (0 + p % Mn) = r * Mn + p := by
        rw [Nat.add_mul, Nat.zero_add, Nat.add_assoc, Nat.div_add_mod']
      rw [hx]
    rw [hTd, hBd]
    exact List.take_append_drop (r * Mn) Md

/-- C8 witness: the round trip applied to the concrete 2 x 2 matrix
[[1, 2], [3, 4]] split at the interior column boundary 1: the two cuts
succeed and merge back to the matrix. -/
theorem split_merge_roundtrip_witness :
    ∃ L R, (⟨2, 2, [1, 2, 3, 4]⟩ : StaticMatrix ℚ).cutLeft 1 = some L ∧
      (⟨2, 2, [1, 2, 3, 4]⟩ : StaticMatrix ℚ).cutRight 1 = some R ∧
      StaticMatrix.mergeH L R = (⟨2, 2, [1, 2, 3, 4]⟩ : StaticMatrix ℚ) :=
  (split_merge_roundtrip ⟨2, 2, [1, 2, 3, 4]⟩ ⟨by decide, by decide, by decide⟩
    (by decide) (by decide)).1 1 (by decide) (by decide)

/-- Auxiliary for C7: whenever the recursion of detHitsZero reports a
zero pivot, the determinant recursion returns 0 (the two recursions
walk identical scratch states and test the same condition). -/
theorem detLoop_eq_zero_of_hit (n : Nat) :
    ∀ (k : Nat) (cp : List ℚ) (neg : Bool),
      detHitsZero n k cp = true → detLoop n k cp neg = 0 := by
  intro k
  induction k with
  | zero =>
    intro cp neg h
    simp [detHitsZero] at h
  | succ k ih =>
    intro cp neg h
    simp only [detHitsZero] at h
    simp only [detLoop]
    by_cases hz : (pivotLoop (fun r => cp.getD (r * n + (k + 1)) 0) (k + 1)
        (|cp.getD ((k + 1) * n + (k + 1)) 0|, k + 1)).1 = 0
    · rw [if_pos hz]
    · rw [if_neg hz]
      rw [if_neg hz] at h
      exact ih _ _ h

/-- C7.  det returns the exact value 0 as a normal result — not an
error — whenever its elimination meets a zero pivot: at the step where
the largest absolute value scanned in the active column is 0 the
function returns 0 immediately (StaticMatrix.h lines 383-384).
detHitsZero replays exactly the scans and scratch-state updates of det
and records whether the condition of line 383 is met at some step. -/
theorem det_returns_zero_on_zero_pivot (A : StaticMatrix ℚ) (_hsq : A.m = A.n)
    (hhit : detHitsZero A.n (A.n - 1) A.data = true) :
    A.det = 0 :=
  detLoop_eq_zero_of_hit A.n (A.n - 1) A.data false hhit

/-- C7 witness: the singular matrix [[1, 0], [1, 0]] makes the column
scan of det find a zero pivot in its first step, and det evaluates to
exactly 0. -/
theorem det_returns_zero_on_zero_pivot_witness :
    (⟨2, 2, [1, 0, 1, 0]⟩ : StaticMatrix ℚ).det = 0 :=
  det_returns_zero_on_zero_pivot ⟨2, 2, [1, 0, 1, 0]⟩ (by decide) (by decide)

/-- C2.  Copy-on-write isolation.  A handle at address a is copied
(Matrix B = A shares the cell and bumps its count), then the value x is
written at (i0, j0) through the copy.  Because the cell count is now at
least 2, the write detaches onto a fresh cell first, so every element
read through the original handle is unchanged; and the write is visible
through the handle that was mutated.  After the copy both handles are
the same address, so this same statement is also the symmetric case in
which the original handle is the mutated one and the copy is the
observer. -/
theorem cow_isolation (s : Store ℚ) (a : Nat) (ha : a < s.cells.length)
    (hlive : 1 ≤ s.cntAt a) (hlen : (s.bufAt a).data.length = (s.bufAt a).m * (s.bufAt a).n)
    (i0 j0 : Nat) (hi0 : i0 < (s.bufAt a).m) (hj0 : j0 < (s.bufAt a).n) (x : ℚ) :
    ∀ i j : Nat,
      (((s.copyHandle (some a)).1.writeElem (s.copyHandle (some a)).2 i0 j0 x).1.readElem
          (some a) i j = s.readElem (some a) i j) ∧
      (((s.copyHandle (some a)).1.writeElem (s.copyHandle (some a)).2 i0 j0 x).1.readElem
          ((s.copyHandle (some a)).1.writeElem (s.copyHandle (some a)).2 i0 j0 x).2 i0 j0 = x) := by
  intro i j
  -- the store after the copy Matrix B = A: same cells, count of cell a bumped
  set s1 : Store ℚ := ⟨s.cells.set a (s.bufAt a, s.cntAt a + 1)⟩ with hs1
  have hcopy : s.copyHandle (some a) = (s1, some a) := rfl
  have hs1len : s1.cells.length = s.cells.length := by rw [hs1]; simp
  have hs1cnt : s1.cntAt a = s.cntAt a + 1 := by
    rw [hs1, Store.cntAt_mk, getD_set_self _ _ _ ha]
  have hs1buf : s1.bufAt a = s.bufAt a := by
    rw [hs1, Store.bufAt_mk, getD_set_self _ _ _ ha]
  have hbig : 1 < s1.cntAt a := by rw [hs1cnt]; omega
  -- the write detaches first: cell a is shared
  set s2 : Store ℚ :=
    ⟨(s1.cells.set a (s1.bufAt a, s1.cntAt a - 1)) ++ [(s1.bufAt a, 1)]⟩ with hs2
  have hdet : s1.detach (some a) = (s2, some s1.cells.length) := by
    show (if 1 < s1.cntAt a then
        ((⟨(s1.cells.set a (s1.bufAt a, s1.cntAt a - 1)) ++ [(s1.bufAt a, 1)]⟩ : Store ℚ),
          some s1.cells.length)
      else (s1, some a)) = (s2, some s1.cells.length)
    rw [if_pos hbig]
  have hsetlen : (s1.cells.set a (s1.bufAt a, s1.cntAt a - 1)).length = s1.cells.length := by
    simp
  have hs2bufa : s2.bufAt a = s.bufAt a := by
    rw [hs2, Store.bufAt_mk]
    rw [getD_append_left _ _ (by rw [hsetlen, hs1len]; exact ha)]
    rw [getD_set_self _ _ _ (by rw [hs1len]; exact ha)]
    exact hs1buf
  have hs2bufL : s2.bufAt s1.cells.length = s.bufAt a := by
    rw [hs2, Store.bufAt_mk]
    rw [show s1.cells.length = (s1.cells.set a (s1.bufAt a, s1.cntAt a - 1)).length from
      hsetlen.symm]
    rw [getD_append_self]
    exact hs1buf
  have hL : s1.cells.length < s2.cells.length := by
    rw [hs2]; simp only [List.length_append, hsetlen, List.length_singleton]; omega
  -- the store after the write through the detached copy
  set s3 : Store ℚ :=
    ⟨s2.cells.set s1.cells.length
        ((s2.bufAt s1.cells.length).setAt i0 j0 x, s2.cntAt s1.cells.length)⟩ with hs3
  have hwr : s1.writeElem (some a) i0 j0 x = (s3, some s1.cells.length) := by
    unfold Store.writeElem
    rw [hdet]
  have haneq : a ≠ s1.cells.length := by rw [hs1len]; exact Nat.ne_of_lt ha
  have hs3bufa : s3.bufAt a = s.bufAt a := by
    rw [hs3, Store.bufAt_mk]
    rw [getD_set_ne _ _ _ (fun hh => haneq hh.symm)]
    exact hs2bufa
  have hs3bufL : s3.bufAt s1.cells.length = (s.bufAt a).setAt i0 j0 x := by
    rw [hs3, Store.bufAt_mk]
    rw [getD_set_self _ _ _ hL]
    rw [hs2bufL]
  refine ⟨?_, ?_⟩
  · rw [hcopy]
    show ((s1.writeElem (some a) i0 j0 x).1.readElem (some a) i j) = _
    rw [hwr]
    show (s3.bufAt a).at' i j = (s.bufAt a).at' i j
    rw [hs3bufa]
  · rw [hcopy]
    show ((s1.writeElem (some a) i0 j0 x).1.readElem
        (s1.writeElem (some a) i0 j0 x).2 i0 j0) = x
    rw [hwr]
    show (s3.bufAt s1.cells.length).at' i0 j0 = x
    rw [hs3bufL]
    exact StaticMatrix.at'_setAt_self _ hlen hi0 hj0 x

/-- C2 witness: the isolation theorem applied to a one-cell store holding
the 1 x 1 matrix [5] with reference count 1: after the copy and the write
of 9 through the copy, reading (0,0) through the original handle still
gives the original stored value. -/
theorem cow_isolation_witness :
    (((⟨[(⟨1, 1, [5]⟩, 1)]⟩ : Store ℚ).copyHandle (some 0)).1.writeElem
        ((⟨[(⟨1, 1, [5]⟩, 1)]⟩ : Store ℚ).copyHandle (some 0)).2 0 0 9).1.readElem
      (some 0) 0 0 = (⟨[(⟨1, 1, [5]⟩, 1)]⟩ : Store ℚ).readElem (some 0) 0 0 :=
  (cow_isolation ⟨[(⟨1, 1, [5]⟩, 1)]⟩ 0 (by decide) (by decide)
    (by decide) 0 0 (by decide) (by decide) 9 0 0).1

/-- C9 counterexample: the sized construction Matrix(0, 3) is not a
precondition failure; it is accepted and yields the NULL handle
(Matrix.h lines 93-101 branch to _p = NULL on non-positive sizes), so a
sized construction does not always yield a Shared handle. -/
theorem sized_construction_zero_rows_yields_null :
    ((⟨[]⟩ : Store ℚ).mkSized 0 3).2 = none := rfl

/-- C9 (amended).  A sized construction (with or without a fill value)
yields a Shared (non-null) handle exactly when m > 0 and n > 0; with
m ≤ 0 or n ≤ 0 the constructor is still accepted — no precondition
failure — and yields the Null handle.  A freshly constructed Shared
handle owns its cell with reference count 1. -/
theorem sized_construction_state (s : Store ℚ) (m n : Int) (v : ℚ) :
    ((s.mkSized m n).2.isSome = (decide (0 < m) && decide (0 < n))) ∧
    ((s.mkSizedVal m n v).2.isSome = (decide (0 < m) && decide (0 < n))) ∧
    (∀ a2, (s.mkSized m n).2 = some a2 → (s.mkSized m n).1.cntAt a2 = 1) ∧
    (∀ a2, (s.mkSizedVal m n v).2 = some a2 → (s.mkSizedVal m n v).1.cntAt a2 = 1) := by
  unfold Store.mkSized Store.mkSizedVal
  by_cases h : 0 < m ∧ 0 < n
  · rw [if_pos h, if_pos h]
    refine ⟨by simp [h.1, h.2], by simp [h.1, h.2], ?_, ?_⟩
    all_goals
      intro a2 ha2
      simp only [Option.some.injEq] at ha2
      subst ha2
      unfold Store.cntAt Store.alloc
      simp only
      rw [getD_append_self]
  · rw [if_neg h, if_neg h]
    refine ⟨?_, ?_, ?_, ?_⟩
    · rcases not_and_or.mp h with h1 | h1 <;> simp [h1]
    · rcases not_and_or.mp h with h1 | h1 <;> simp [h1]
    · intro a2 ha2; cases ha2
    · intro a2 ha2; cases ha2

/-- C9 witness: the amended statement applied to the empty store with the
accepted construction Matrix(2, 3): the handle is Shared and its fresh
cell has reference count 1. -/
theorem sized_construction_state_witness :
    ((⟨[]⟩ : Store ℚ).mkSized 2 3).1.cntAt 0 = 1 :=
  (sized_construction_state ⟨[]⟩ 2 3 5).2.2.1 0 rfl

/-! ### Auxiliary development for C5 (self-division yields the identity) -/

theorem getD_overwrite_pos {f : Nat → ℚ → ℚ} {l : List ℚ} {n r c : Nat}
    (hl : l.length = n * n) (hr : r < n) (hc : c < n) :
    (overwriteIdx f l 0).getD (r * n + c) 0 = f (r * n + c) (l.getD (r * n + c) 0) := by
  rw [getD_overwriteIdx]
  rw [if_pos (by rw [hl]; exact idx_lt hr hc)]

/-- getD formula of the branch-guarded partial row swap of the scratch
copy; the formula also covers the b = k case, where the swap is the
identity. -/
theorem getD_swapUpTo_branch (n k b : Nat) (cp : List ℚ) (hcp : cp.length = n * n)
    {r c : Nat} (hr : r < n) (hc : c < n) :
    (if b ≠ k then StaticMatrix.swapRowsUpTo n k b cp else cp).getD (r * n + c) 0 =
      if r = k ∧ c ≤ k then cp.getD (b * n + c) 0
      else if r = b ∧ c ≤ k then cp.getD (k * n + c) 0
      else cp.getD (r * n + c) 0 := by
  by_cases hbk : b ≠ k
  · rw [if_pos hbk]
    unfold StaticMatrix.swapRowsUpTo
    rw [getD_overwrite_pos hcp hr hc]
    rw [idx_div r hc, idx_mod r hc]
  · rw [if_neg hbk]
    push_neg at hbk
    subst hbk
    by_cases h1 : r = b ∧ c ≤ b
    · rw [if_pos h1, h1.1]
    · rw [if_neg h1, if_neg h1]

/-- getD formula of the branch-guarded full row swap of self. -/
theorem getD_swapFull_branch (n k b : Nat) (d : List ℚ) (hd : d.length = n * n)
    {r c : Nat} (hr : r < n) (hc : c < n) :
    (if b ≠ k then StaticMatrix.swapRowsFull n k b d else d).getD (r * n + c) 0 =
      if r = k then d.getD (b * n + c) 0
      else if r = b then d.getD (k * n + c) 0
      else d.getD (r * n + c) 0 := by
  by_cases hbk : b ≠ k
  · rw [if_pos hbk]
    unfold StaticMatrix.swapRowsFull
    rw [getD_overwrite_pos hd hr hc]
    rw [idx_div r hc, idx_mod r hc]
  · rw [if_neg hbk]
    push_neg at hbk
    subst hbk
    by_cases h1 : r = b
    · rw [if_pos h1, h1]
    · rw [if_neg h1, if_neg h1]

/-- getD formula of the branch-guarded scale of the scratch copy; the
formula also covers piv = 1, where dividing changes nothing. -/
theorem getD_scaleCopy_branch (n k : Nat) (piv : ℚ) (cp : List ℚ)
    (hcp : cp.length = n * n) {r c : Nat} (hr : r < n) (hc : c < n) :
    (if piv ≠ 1 then StaticMatrix.gjScaleCopy n k piv cp else cp).getD (r * n + c) 0 =
      if r = k ∧ c < k then cp.getD (r * n + c) 0 / piv else cp.getD (r * n + c) 0 := by
  by_cases hp : piv ≠ 1
  · rw [if_pos hp]
    unfold StaticMatrix.gjScaleCopy
    rw [getD_overwrite_pos hcp hr hc]
    rw [idx_div r hc, idx_mod r hc]
  · rw [if_neg hp]
    push_neg at hp
    subst hp
    by_cases h1 : r = k ∧ c < k
    · rw [if_pos h1, div_one]
    · rw [if_neg h1]

/-- getD formula of the branch-guarded scale of self. -/
theorem getD_scaleSelf_branch (n k : Nat) (piv : ℚ) (d : List ℚ)
    (hd : d.length = n * n) {r c : Nat} (hr : r < n) (hc : c < n) :
    (if piv ≠ 1 then StaticMatrix.gjScaleSelf n k piv d else d).getD (r * n + c) 0 =
      if r = k then d.getD (r * n + c) 0 / piv else d.getD (r * n + c) 0 := by
  by_cases hp : piv ≠ 1
  · rw [if_pos hp]
    unfold StaticMatrix.gjScaleSelf
    rw [getD_overwrite_pos hd hr hc]
    rw [idx_div r hc]
  · rw [if_neg hp]
    push_neg at hp
    subst hp
    by_cases h1 : r = k
    · rw [if_pos h1, div_one]
    · rw [if_neg h1]

/-- getD formula of the elimination on the scratch copy. -/
theorem getD_elimCopy (n k : Nat) (cp : List ℚ) (hcp : cp.length = n * n)
    {r c : Nat} (hr : r < n) (hc : c < n) :
    (StaticMatrix.gjElimCopy n k cp).getD (r * n + c) 0 =
      if r ≠ k ∧ c < k ∧ cp.getD (r * n + k) 0 ≠ 0 then
        cp.getD (r * n + c) 0 - cp.getD (r * n + k) 0 * cp.getD (k * n + c) 0
      else cp.getD (r * n + c) 0 := by
  unfold StaticMatrix.gjElimCopy
  rw [getD_overwrite_pos hcp hr hc]
  rw [idx_div r hc, idx_mod r hc]

/-- getD formula of the elimination on self. -/
theorem getD_elimSelf (n k : Nat) (cp d : List ℚ) (hd : d.length = n * n)
    {r c : Nat} (hr : r < n) (hc : c < n) :
    (StaticMatrix.gjElimSelf n k cp d).getD (r * n + c) 0 =
      if r ≠ k ∧ cp.getD (r * n + k) 0 ≠ 0 then
        d.getD (r * n + c) 0 - cp.getD (r * n + k) 0 * d.getD (k * n + c) 0
      else d.getD (r * n + c) 0 := by
  unfold StaticMatrix.gjElimSelf
  rw [getD_overwrite_pos hd hr hc]
  rw [idx_div r hc, idx_mod r hc]

/-- Specification of the pivot scan: starting from the state
(|f b0|, b0), the result tracks an actual column entry, its index stays
among the scanned ones or the start index, the tracked absolute value
never decreases, and it dominates every scanned entry. -/
theorem pivotLoop_spec (f : Nat → ℚ) :
    ∀ (cnt : Nat) (b0 : Nat),
      ((StaticMatrix.pivotLoop f cnt (|f b0|, b0)).1 =
        |f (StaticMatrix.pivotLoop f cnt (|f b0|, b0)).2|) ∧
      ((StaticMatrix.pivotLoop f cnt (|f b0|, b0)).2 = b0 ∨
        (StaticMatrix.pivotLoop f cnt (|f b0|, b0)).2 < cnt) ∧
      (|f b0| ≤ (StaticMatrix.pivotLoop f cnt (|f b0|, b0)).1) ∧
      (∀ r, r < cnt → |f r| ≤ (StaticMatrix.pivotLoop f cnt (|f b0|, b0)).1) := by
  intro cnt
  induction cnt with
  | zero =>
    intro b0
    refine ⟨rfl, Or.inl rfl, le_refl _, fun r hr => absurd hr (Nat.not_lt_zero r)⟩
  | succ cnt ih =>
    intro b0
    have hunf : StaticMatrix.pivotLoop f (cnt + 1) (|f b0|, b0) =
        StaticMatrix.pivotLoop f cnt
          (if |f cnt| > |f b0| then (|f cnt|, cnt) else (|f b0|, b0)) := rfl
    rw [hunf]
    by_cases hgt : |f cnt| > |f b0|
    · rw [if_pos hgt]
      obtain ⟨h1, h2, h3, h4⟩ := ih cnt
      refine ⟨h1, ?_, le_of_lt (lt_of_lt_of_le hgt h3), ?_⟩
      · rcases h2 with h2 | h2
        · exact Or.inr (by rw [h2]; exact Nat.lt_succ_self cnt)
        · exact Or.inr (Nat.lt_succ_of_lt h2)
      · intro r hr
        rcases Nat.lt_or_ge r cnt with hr' | hr'
        · exact h4 r hr'
        · have : r = cnt := by omega
          subst this
          exact h3
    · rw [if_neg hgt]
      obtain ⟨h1, h2, h3, h4⟩ := ih b0
      refine ⟨h1, ?_, h3, ?_⟩
      · rcases h2 with h2 | h2
        · exact Or.inl h2
        · exact Or.inr (Nat.lt_succ_of_lt h2)
      · intro r hr
        rcases Nat.lt_or_ge r cnt with hr' | hr'
        · exact h4 r hr'
        · have : r = cnt := by omega
          subst this
          exact le_trans (not_lt.mp hgt) h3

/-- If the matrix is invertible and its columns right of column k are
already the identity columns, some row r ≤ k has a non-zero entry in
column k (otherwise column k would be a combination of the later
columns and the determinant would vanish). -/
theorem exists_pivot (n k : Nat) (hk : k < n) (M : Matrix (Fin n) (Fin n) ℚ)
    (hI1 : ∀ i j : Fin n, k < (j : Nat) → M i j = if i = j then 1 else 0)
    (hdet : M.det ≠ 0) :
    ∃ r : Fin n, (r : Nat) ≤ k ∧ M r ⟨k, hk⟩ ≠ 0 := by
  by_contra hno
  push_neg at hno
  have hzero : ∀ r : Fin n, (r : Nat) ≤ k → M r ⟨k, hk⟩ = 0 := hno
  set kk : Fin n := ⟨k, hk⟩ with hkk
  set v : Fin n → ℚ := fun j => if j = kk then 1 else if k < (j : Nat) then -(M j kk) else 0
    with hv
  have hvne : v ≠ 0 := by
    intro h0
    have : v kk = 0 := congrFun h0 kk
    rw [hv] at this
    simp at this
  have hmv : M.mulVec v = 0 := by
    funext i
    show (∑ j, M i j * v j) = 0
    have hsplit : ∀ j : Fin n, M i j * v j =
        (if j = kk then M i kk else 0) +
        (if k < (j : Nat) then M i j * (-(M j kk)) else 0) := by
      intro j
      simp only [hv]
      by_cases h1 : j = kk
      · subst h1
        simp [hkk]
      · rw [if_neg h1, if_neg h1]
        by_cases h2 : k < (j : Nat)
        · rw [if_pos h2, if_pos h2]
          ring
        · rw [if_neg h2, if_neg h2]
          ring
    rw [Finset.sum_congr rfl (fun j _ => hsplit j)]
    rw [Finset.sum_add_distrib]
    rw [Finset.sum_ite_eq' Finset.univ kk (fun j => M i kk)]
    rw [if_pos (Finset.mem_univ kk)]
    have hsum2 : (∑ j : Fin n, if k < (j : Nat) then M i j * (-(M j kk)) else 0) =
        if k < (i : Nat) then -(M i kk) else 0 := by
      by_cases hik : k < (i : Nat)
      · rw [if_pos hik]
        rw [Finset.sum_eq_single i]
        · rw [if_pos hik, hI1 i i hik, if_pos rfl]
          ring
        · intro j _ hji
          by_cases hjk : k < (j : Nat)
          · rw [if_pos hjk, hI1 i j hjk, if_neg (fun h => hji (h.symm)), zero_mul]
          · rw [if_neg hjk]
        · intro habs
          exact absurd (Finset.mem_univ i) habs
      · rw [if_neg hik]
        refine Finset.sum_eq_zero ?_
        intro j _
        by_cases hjk : k < (j : Nat)
        · rw [if_pos hjk, hI1 i j hjk]
          rw [if_neg ?hne, zero_mul]
          case hne =>
            intro h
            subst h
            omega
        · rw [if_neg hjk]
    rw [hsum2]
    by_cases hik : k < (i : Nat)
    · rw [if_pos hik]
      ring
    · rw [if_neg hik]
      rw [hzero i (by omega)]
      ring
  have : M.det = 0 := Matrix.exists_mulVec_eq_zero_iff.mp ⟨v, hvne, hmv⟩
  exact hdet this

/-- The elimination fold: over a duplicate-free list of rows it
preserves the determinant and realizes the simultaneous elimination
formula. -/
theorem elimRows_spec (n : Nat) (k : Fin n) :
    ∀ (L : List (Fin n)), L.Nodup → ∀ (M : Matrix (Fin n) (Fin n) ℚ),
      ((elimRows n k L M).det = M.det) ∧
      (∀ i j : Fin n, elimRows n k L M i j =
        if i ∈ L ∧ i ≠ k then M i j - M i k * M k j else M i j) := by
  intro L
  induction L with
  | nil =>
    intro _ M
    refine ⟨rfl, fun i j => ?_⟩
    rw [if_neg (by simp)]
    rfl
  | cons r L ih =>
    intro hnd M
    have hndL : L.Nodup := (List.nodup_cons.mp hnd).2
    have hrL : r ∉ L := (List.nodup_cons.mp hnd).1
    by_cases hrk : r = k
    · have hstep : elimRows n k (r :: L) M = elimRows n k L M := by
        unfold elimRows
        rw [List.foldl_cons, if_pos hrk]
      rw [hstep]
      obtain ⟨h1, h2⟩ := ih hndL M
      refine ⟨h1, fun i j => ?_⟩
      rw [h2 i j]
      by_cases hi : i ∈ L ∧ i ≠ k
      · rw [if_pos hi, if_pos ⟨List.mem_cons_of_mem r hi.1, hi.2⟩]
      · rw [if_neg hi, if_neg ?hneg]
        case hneg =>
          intro hcon
          rcases List.mem_cons.mp hcon.1 with he | he
          · exact hcon.2 (he ▸ hrk)
          · exact hi ⟨he, hcon.2⟩
    · set M1 := M.updateRow r (M r - M r k • M k) with hM1
      have hstep : elimRows n k (r :: L) M = elimRows n k L M1 := by
        unfold elimRows
        rw [List.foldl_cons, if_neg hrk]
      have hM1k : M1 k = M k := by
        rw [hM1]
        exact Matrix.updateRow_ne (fun h => hrk h.symm)
      have hM1app : ∀ i j : Fin n, M1 i j =
          if i = r then M i j - M i k * M k j else M i j := by
        intro i j
        rw [hM1]
        by_cases hir : i = r
        · subst hir
          rw [if_pos rfl, Matrix.updateRow_self]
          simp [smul_eq_mul]
        · rw [if_neg hir]
          rw [Matrix.updateRow_ne hir]
      obtain ⟨h1, h2⟩ := ih hndL M1
      rw [hstep]
      constructor
      · rw [h1, hM1]
        have : M r - M r k • M k = M r + (-(M r k)) • M k := by
          rw [sub_eq_add_neg, neg_smul]
        rw [this]
        exact Matrix.det_updateRow_add_smul_self M hrk (-(M r k))
      · intro i j
        rw [h2 i j]
        by_cases hiL : i ∈ L ∧ i ≠ k
        · rw [if_pos hiL, if_pos ⟨List.mem_cons_of_mem r hiL.1, hiL.2⟩]
          have hir : i ≠ r := fun h => hrL (h ▸ hiL.1)
          rw [hM1app i j, if_neg hir, hM1app i k, if_neg hir]
          have : M1 k j = M k j := by rw [hM1k]
          rw [this]
        · rw [if_neg hiL]
          by_cases hir : i = r
          · subst hir
            rw [if_pos ⟨List.mem_cons_self i L, hrk⟩]
            rw [hM1app i j, if_pos rfl]
          · rw [if_neg ?hneg]
            · rw [hM1app i j, if_neg hir]
            case hneg =>
              intro hcon
              rcases List.mem_cons.mp hcon.1 with he | he
              · exact hir he
              · exact hiL ⟨he, hcon.2⟩

/-- One Gauss–Jordan column step of operator/= in the self-division
situation: if the scratch copy agrees with self on the active columns
(0..k), the columns right of k are already identity columns and self is
invertible, then after the step the two buffers agree on columns 0..k-1,
column k has become an identity column as well, and self stays
invertible. -/
theorem gjStep_spec (n k : Nat) (hk : k < n) (cp d : List ℚ)
    (hcp : cp.length = n * n) (hd : d.length = n * n)
    (hInv : ∀ r c : Nat, r < n → c < n → c ≤ k →
      cp.getD (r * n + c) 0 = d.getD (r * n + c) 0)
    (hI1 : ∀ i j : Fin n, k < (j : Nat) → toMat n d i j = if i = j then 1 else 0)
    (hdet : (toMat n d).det ≠ 0) :
    (StaticMatrix.gjStep n k cp d).1.length = n * n ∧
    (StaticMatrix.gjStep n k cp d).2.length = n * n ∧
    (∀ r c : Nat, r < n → c < n → c < k →
      (StaticMatrix.gjStep n k cp d).1.getD (r * n + c) 0 =
        (StaticMatrix.gjStep n k cp d).2.getD (r * n + c) 0) ∧
    (∀ i j : Fin n, k ≤ (j : Nat) →
      toMat n (StaticMatrix.gjStep n k cp d).2 i j = if i = j then 1 else 0) ∧
    (toMat n (StaticMatrix.gjStep n k cp d).2).det ≠ 0 := by
  set M := toMat n d with hM
  set f : Nat → ℚ := fun r => cp.getD (r * n + k) 0 with hf
  set st := StaticMatrix.pivotLoop f k (|f k|, k) with hst
  set b := st.2 with hbdef
  set cp1 := if b ≠ k then StaticMatrix.swapRowsUpTo n k b cp else cp with hcp1
  set d1 := if b ≠ k then StaticMatrix.swapRowsFull n k b d else d with hd1
  set piv := cp1.getD (k * n + k) 0 with hpiv
  set cp2 := if piv ≠ 1 then StaticMatrix.gjScaleCopy n k piv cp1 else cp1 with hcp2
  set d2 := if piv ≠ 1 then StaticMatrix.gjScaleSelf n k piv d1 else d1 with hd2
  have hgj : StaticMatrix.gjStep n k cp d =
      (StaticMatrix.gjElimCopy n k cp2, StaticMatrix.gjElimSelf n k cp2 d2) := rfl
  -- lengths through the stages
  have hcp1len : cp1.length = n * n := by
    rw [hcp1]
    by_cases hbk : b ≠ k
    · rw [if_pos hbk]
      unfold StaticMatrix.swapRowsUpTo
      rw [length_overwriteIdx, hcp]
    · rw [if_neg hbk]; exact hcp
  have hd1len : d1.length = n * n := by
    rw [hd1]
    by_cases hbk : b ≠ k
    · rw [if_pos hbk]
      unfold StaticMatrix.swapRowsFull
      rw [length_overwriteIdx, hd]
    · rw [if_neg hbk]; exact hd
  have hcp2len : cp2.length = n * n := by
    rw [hcp2]
    by_cases hp : piv ≠ 1
    · rw [if_pos hp]
      unfold StaticMatrix.gjScaleCopy
      rw [length_overwriteIdx, hcp1len]
    · rw [if_neg hp]; exact hcp1len
  have hd2len : d2.length = n * n := by
    rw [hd2]
    by_cases hp : piv ≠ 1
    · rw [if_pos hp]
      unfold StaticMatrix.gjScaleSelf
      rw [length_overwriteIdx, hd1len]
    · rw [if_neg hp]; exact hd1len
  -- pivot scan results
  obtain ⟨hs1, hs2, hs3, hs4⟩ := pivotLoop_spec f k k
  rw [← hst] at hs1 hs2 hs3 hs4
  have hbk : b ≤ k := by
    rcases hs2 with h | h
    · omega
    · omega
  have hbn : b < n := lt_of_le_of_lt hbk hk
  have hfM : ∀ (r : Nat) (hr : r < n), f r = M ⟨r, hr⟩ ⟨k, hk⟩ := by
    intro r hr
    rw [hf]
    show cp.getD (r * n + k) 0 = _
    rw [hInv r k hr hk (le_refl k), hM]
    rfl
  have hmx : st.1 ≠ 0 := by
    intro h0
    obtain ⟨r, hrk, hrne⟩ := exists_pivot n k hk M hI1 hdet
    have hle : |f (r : Nat)| ≤ st.1 := by
      rcases Nat.lt_or_ge (r : Nat) k with hlt | hge
      · exact hs4 _ hlt
      · have hek : (r : Nat) = k := by omega
        rw [hek]
        exact hs3
    rw [h0] at hle
    have hf0 : f (r : Nat) = 0 :=
      abs_eq_zero.mp (le_antisymm hle (abs_nonneg _))
    rw [hfM (r : Nat) r.2] at hf0
    apply hrne
    rw [← hf0]
  have hpivf : piv = f b := by
    rw [hpiv, hcp1]
    rw [getD_swapUpTo_branch n k b cp hcp hk hk]
    rw [if_pos ⟨rfl, le_refl k⟩]
  have hpivne : piv ≠ 0 := by
    rw [hpivf]
    intro h0
    apply hmx
    rw [hs1, h0, abs_zero]
  have hpivM : piv = M ⟨b, hbn⟩ ⟨k, hk⟩ := by
    rw [hpivf, hfM b hbn]
  -- stage agreement between copy and self
  have hInv1 : ∀ r c : Nat, r < n → c < n → c ≤ k →
      cp1.getD (r * n + c) 0 = d1.getD (r * n + c) 0 := by
    intro r c hr hc hck
    rw [hcp1, hd1, getD_swapUpTo_branch n k b cp hcp hr hc,
      getD_swapFull_branch n k b d hd hr hc]
    by_cases h1 : r = k
    · rw [if_pos ⟨h1, hck⟩, if_pos h1]
      exact hInv b c hbn hc hck
    · rw [if_neg (fun hh => h1 hh.1), if_neg h1]
      by_cases h2 : r = b
      · rw [if_pos ⟨h2, hck⟩, if_pos h2]
        exact hInv k c hk hc hck
      · rw [if_neg (fun hh => h2 hh.1), if_neg h2]
        exact hInv r c hr hc hck
  have hInv2 : ∀ r c : Nat, r < n → c < n → c < k →
      cp2.getD (r * n + c) 0 = d2.getD (r * n + c) 0 := by
    intro r c hr hc hck
    rw [hcp2, hd2, getD_scaleCopy_branch n k piv cp1 hcp1len hr hc,
      getD_scaleSelf_branch n k piv d1 hd1len hr hc]
    by_cases h1 : r = k
    · rw [if_pos ⟨h1, hck⟩, if_pos h1, hInv1 r c hr hc (le_of_lt hck)]
    · rw [if_neg (fun hh => h1 hh.1), if_neg h1]
      exact hInv1 r c hr hc (le_of_lt hck)
  have hcolk : ∀ r : Nat, r < n → r ≠ k →
      cp2.getD (r * n + k) 0 = d2.getD (r * n + k) 0 := by
    intro r hr hrk
    rw [hcp2, hd2, getD_scaleCopy_branch n k piv cp1 hcp1len hr hk,
      getD_scaleSelf_branch n k piv d1 hd1len hr hk]
    rw [if_neg (fun hh => hrk hh.1), if_neg hrk]
    exact hInv1 r k hr hk (le_refl k)
  have hd2kk : d2.getD (k * n + k) 0 = 1 := by
    rw [hd2, getD_scaleSelf_branch n k piv d1 hd1len hk hk, if_pos rfl]
    rw [← hInv1 k k hk hk (le_refl k), ← hpiv]
    exact div_self hpivne
  -- matrix views of the stages
  set kk : Fin n := ⟨k, hk⟩ with hkk
  set bb : Fin n := ⟨b, hbn⟩ with hbb
  set σ : Equiv.Perm (Fin n) := Equiv.swap kk bb with hσ
  have hσout : ∀ j : Fin n, k < (j : Nat) → σ j = j := by
    intro j hj
    rw [hσ]
    refine Equiv.swap_apply_of_ne_of_ne ?_ ?_
    · intro h
      rw [h, hkk] at hj
      exact absurd (show k < k from hj) (by omega)
    · intro h
      rw [h, hbb] at hj
      exact absurd (show k < b from hj) (by omega)
  have hM1 : ∀ i j : Fin n, toMat n d1 i j = M (σ i) j := by
    intro i j
    show d1.getD ((i : Nat) * n + (j : Nat)) 0 = M (σ i) j
    rw [hd1, getD_swapFull_branch n k b d hd i.2 j.2]
    rw [hσ, Equiv.swap_apply_def]
    by_cases h1 : (i : Nat) = k
    · have hfik : i = kk := by rw [hkk]; exact Fin.ext h1
      rw [if_pos h1, if_pos hfik]
      rfl
    · have hfik : ¬ i = kk := by rw [hkk]; exact fun hh => h1 (by rw [hh])
      rw [if_neg h1, if_neg hfik]
      by_cases h2 : (i : Nat) = b
      · have hfib : i = bb := by rw [hbb]; exact Fin.ext h2
        rw [if_pos h2, if_pos hfib]
        rfl
      · have hfib : ¬ i = bb := by rw [hbb]; exact fun hh => h2 (by rw [hh])
        rw [if_neg h2, if_neg hfib]
        rfl
  have hdet1 : (toMat n d1).det ≠ 0 := by
    have heq : toMat n d1 = M.submatrix σ id := by
      apply Matrix.ext
      intro i j
      rw [hM1 i j]
      rfl
    rw [heq, Matrix.det_permute]
    have hsgn : ((Equiv.Perm.sign σ : ℤ) : ℚ) ≠ 0 := by
      rcases Int.units_eq_one_or (Equiv.Perm.sign σ) with h | h <;> rw [h] <;> norm_num
    exact mul_ne_zero hsgn hdet
  have hM2 : ∀ i j : Fin n, toMat n d2 i j =
      if i = kk then toMat n d1 i j / piv else toMat n d1 i j := by
    intro i j
    show d2.getD ((i : Nat) * n + (j : Nat)) 0 = _
    rw [hd2, getD_scaleSelf_branch n k piv d1 hd1len i.2 j.2]
    by_cases h1 : (i : Nat) = k
    · have hfik : i = kk := by rw [hkk]; exact Fin.ext h1
      rw [if_pos h1, if_pos hfik]
      rfl
    · have hfik : ¬ i = kk := by rw [hkk]; exact fun hh => h1 (by rw [hh])
      rw [if_neg h1, if_neg hfik]
      rfl
  have hdet2 : (toMat n d2).det ≠ 0 := by
    have heq : toMat n d2 = (toMat n d1).updateRow kk (piv⁻¹ • toMat n d1 kk) := by
      apply Matrix.ext
      intro i j
      rw [hM2 i j, Matrix.updateRow_apply]
      by_cases h1 : i = kk
      · rw [if_pos h1, if_pos h1, h1]
        show toMat n d1 kk j / piv = (piv⁻¹ • toMat n d1 kk) j
        rw [Pi.smul_apply, smul_eq_mul, div_eq_inv_mul]
      · rw [if_neg h1, if_neg h1]
    rw [heq, Matrix.det_updateRow_smul, Matrix.updateRow_eq_self]
    exact mul_ne_zero (inv_ne_zero hpivne) hdet1
  have hM2kk : toMat n d2 kk kk = 1 := hd2kk
  have hE : ∀ i j : Fin n, toMat n (StaticMatrix.gjElimSelf n k cp2 d2) i j =
      if i = kk then toMat n d2 i j
      else toMat n d2 i j - toMat n d2 i kk * toMat n d2 kk j := by
    intro i j
    show (StaticMatrix.gjElimSelf n k cp2 d2).getD ((i : Nat) * n + (j : Nat)) 0 = _
    rw [getD_elimSelf n k cp2 d2 hd2len i.2 j.2]
    by_cases h1 : (i : Nat) ≠ k
    · have hfin : ¬ (i = kk) := by rw [hkk]; exact fun hh => h1 (by rw [hh])
      rw [if_neg hfin]
      have hτ : cp2.getD ((i : Nat) * n + k) 0 = toMat n d2 i kk := by
        rw [hcolk (i : Nat) i.2 h1]
        rfl
      by_cases h2 : cp2.getD ((i : Nat) * n + k) 0 ≠ 0
      · rw [if_pos ⟨h1, h2⟩, hτ]
        rfl
      · push_neg at h2
        rw [if_neg (fun hh => hh.2 h2)]
        rw [hτ] at h2
        rw [h2, zero_mul, sub_zero]
        rfl
    · push_neg at h1
      have hfik : i = kk := by rw [hkk]; exact Fin.ext h1
      rw [if_pos hfik, if_neg (fun hh => hh.1 h1)]
      rfl
  refine ⟨?_, ?_, ?_, ?_, ?_⟩
  · rw [hgj]
    show (StaticMatrix.gjElimCopy n k cp2).length = n * n
    unfold StaticMatrix.gjElimCopy
    rw [length_overwriteIdx, hcp2len]
  · rw [hgj]
    show (StaticMatrix.gjElimSelf n k cp2 d2).length = n * n
    unfold StaticMatrix.gjElimSelf
    rw [length_overwriteIdx, hd2len]
  · intro r c hr hc hck
    rw [hgj]
    show (StaticMatrix.gjElimCopy n k cp2).getD (r * n + c) 0 =
      (StaticMatrix.gjElimSelf n k cp2 d2).getD (r * n + c) 0
    rw [getD_elimCopy n k cp2 hcp2len hr hc, getD_elimSelf n k cp2 d2 hd2len hr hc]
    by_cases h1 : r ≠ k ∧ cp2.getD (r * n + k) 0 ≠ 0
    · rw [if_pos ⟨h1.1, hck, h1.2⟩, if_pos h1]
      rw [hInv2 r c hr hc hck, hInv2 k c hk hc hck]
    · rw [if_neg (fun hh => h1 ⟨hh.1, hh.2.2⟩), if_neg h1]
      exact hInv2 r c hr hc hck
  · intro i j hkj
    rw [hgj]
    show toMat n (StaticMatrix.gjElimSelf n k cp2 d2) i j = _
    rw [hE i j]
    rcases Nat.eq_or_lt_of_le hkj with hjk | hjk
    · -- the new identity column j = k
      have hjfin : j = kk := by rw [hkk]; exact Fin.ext hjk.symm
      subst hjfin
      by_cases h1 : i = kk
      · rw [if_pos h1, if_pos h1, h1]
        exact hM2kk
      · rw [if_neg h1, if_neg h1, hM2kk, mul_one, sub_self]
    · -- columns strictly right of k stay identity columns
      have hI1d1 : ∀ i : Fin n, toMat n d1 i j = if i = j then 1 else 0 := by
        intro i
        rw [hM1 i j, hI1 (σ i) j hjk]
        by_cases h1 : i = j
        · rw [if_pos h1, if_pos (by rw [h1, hσout j hjk])]
        · rw [if_neg h1, if_neg ?hx]
          case hx =>
            intro hh
            apply h1
            have := congrArg σ.symm hh
            rw [Equiv.symm_apply_apply] at this
            rw [this]
            have hjj := hσout j hjk
            have := congrArg σ.symm hjj
            rw [Equiv.symm_apply_apply] at this
            rw [← this]
      have hI1d2 : ∀ i : Fin n, toMat n d2 i j = if i = j then 1 else 0 := by
        intro i
        rw [hM2 i j, hI1d1 i]
        by_cases h1 : i = kk
        · rw [if_pos h1]
          have hij : ¬ (i = j) := by
            intro hh
            rw [h1] at hh
            rw [← hh] at hjk
            exact absurd (show k < k from hjk) (by omega)
          rw [if_neg hij, zero_div]
        · rw [if_neg h1]
      by_cases h1 : i = kk
      · rw [if_pos h1, hI1d2 i]
      · rw [if_neg h1, hI1d2 i, hI1d2 kk]
        have hkj' : ¬ (kk = j) := by
          intro hh
          rw [← hh] at hjk
          exact absurd (show k < k from hjk) (by omega)
        rw [if_neg hkj', mul_zero, sub_zero]
  · rw [hgj]
    show (toMat n (StaticMatrix.gjElimSelf n k cp2 d2)).det ≠ 0
    obtain ⟨hdetE, happE⟩ :=
      elimRows_spec n kk (List.finRange n) (List.nodup_finRange n) (toMat n d2)
    have heq : toMat n (StaticMatrix.gjElimSelf n k cp2 d2) =
        elimRows n kk (List.finRange n) (toMat n d2) := by
      apply Matrix.ext
      intro i j
      rw [hE i j, happE i j]
      by_cases h1 : i = kk
      · rw [if_pos h1, if_neg (fun hh => hh.2 h1)]
      · rw [if_neg h1, if_pos ⟨List.mem_finRange i, h1⟩]
    rw [heq, hdetE]
    exact hdet2

/-- The column loop of operator/= (lines 424-489) in the self-division
configuration: with the scratch copy agreeing with self on every column
left of the counter, the identity already established on the columns at
and right of the counter, and a nonzero determinant, the loop leaves
self holding the identity matrix. -/
theorem gjLoop_identity (n : Nat) (k : Nat) : k ≤ n → ∀ cp d : List ℚ,
    cp.length = n * n → d.length = n * n →
    (∀ r c : Nat, r < n → c < n → c < k →
      cp.getD (r * n + c) 0 = d.getD (r * n + c) 0) →
    (∀ i j : Fin n, k ≤ (j : Nat) → toMat n d i j = if i = j then 1 else 0) →
    (toMat n d).det ≠ 0 →
    ∀ i j : Fin n, toMat n (StaticMatrix.gjLoop n k cp d) i j =
      if i = j then 1 else 0 := by
  induction k with
  | zero =>
    intro _ cp d _ _ _ hI1 _ i j
    exact hI1 i j (Nat.zero_le _)
  | succ k ih =>
    intro hk cp d hcp hd hInv hI1 hdet i j
    obtain ⟨h1, h2, h3, h4, h5⟩ := gjStep_spec n k hk cp d hcp hd
      (fun r c hr hc hck => hInv r c hr hc (Nat.lt_succ_of_le hck))
      (fun i2 j2 hj2 => hI1 i2 j2 hj2) hdet
    show toMat n (StaticMatrix.gjLoop n k (StaticMatrix.gjStep n k cp d).1
        (StaticMatrix.gjStep n k cp d).2) i j = _
    exact ih (Nat.le_of_succ_le hk) _ _ h1 h2 h3 h4 h5 i j

/-- The flat positions written by addIdentity on an n x n buffer — the
multiples q * (n + 1) with q below the diagonal length (StaticMatrix.h
lines 179-189) — are exactly the diagonal positions i = j. -/
theorem addIdentity_diag_iff {n i j : Nat} (hi : i < n) (hj : j < n) :
    ((i * n + j) % (n + 1) = 0 ∧ (i * n + j) / (n + 1) < min n n) ↔ i = j := by
  rw [Nat.min_self]
  constructor
  · rintro ⟨hmod, hdiv⟩
    set q := (i * n + j) / (n + 1) with hq
    have hpe : i * n + j = q * n + q := by
      have h0 := Nat.div_add_mod (i * n + j) (n + 1)
      rw [← hq, hmod, Nat.add_zero] at h0
      calc i * n + j = (n + 1) * q := h0.symm
        _ = q * n + q := by ring
    have ha : (i * n + j) / n = i := idx_div i hj
    have hb : (q * n + q) / n = q := idx_div q hdiv
    have hc : (i * n + j) % n = j := idx_mod i hj
    have hd2 : (q * n + q) % n = q := idx_mod q hdiv
    rw [hpe] at ha hc
    rw [hb] at ha
    rw [hd2] at hc
    rw [← ha, ← hc]
  · intro h
    rw [h]
    have hpe : j * n + j = j * (n + 1) := by ring
    rw [hpe, Nat.mul_mod_left, Nat.mul_div_cancel j (Nat.succ_pos n)]
    exact ⟨rfl, hj⟩

/-- The buffer built by the same-cell shortcut of Matrix::operator/= —
the value constructor with 0 followed by addIdentity — holds exactly the
n x n identity entries. -/
theorem addIdentity_mkVal_zero_entry (n i j : Nat) (hi : i < n) (hj : j < n) :
    ((StaticMatrix.mkVal n n (0 : ℚ)).addIdentity).at' i j =
      if i = j then 1 else 0 := by
  show (overwriteIdx
      (fun p v => if p % (n + 1) = 0 ∧ p / (n + 1) < min n n then v + 1 else v)
      (List.replicate (n * n) (0 : ℚ)) 0).getD (i * n + j) 0 = _
  rw [getD_overwriteIdx, List.length_replicate, if_pos (idx_lt hi hj)]
  have hv : (List.replicate (n * n) (0 : ℚ)).getD (i * n + j) 0 = 0 := by
    rw [List.getD_eq_getElem?_getD, List.getElem?_replicate]
    split <;> rfl
  rw [hv]
  by_cases h : i = j
  · rw [if_pos ((addIdentity_diag_iff hi hj).mpr h), if_pos h, zero_add]
  · rw [if_neg (fun hc => h ((addIdentity_diag_iff hi hj).mp hc)), if_neg h]

/-- The elimination kernel of operator/= applied to two equal square
invertible buffers produces the identity entries. -/
theorem divEq_self_entry (n : Nat) (A : StaticMatrix ℚ)
    (han : A.n = n) (hlen : A.data.length = n * n)
    (hdet : (toMat n A.data).det ≠ 0) :
    ∀ i j : Nat, i < n → j < n →
      (A.divEq A).at' i j = if i = j then 1 else 0 := by
  intro i j hi hj
  show (StaticMatrix.gjLoop A.n A.n A.data A.data).getD (i * A.n + j) 0 = _
  rw [han]
  have hgl := gjLoop_identity n n (Nat.le_refl n) A.data A.data hlen hlen
    (fun _ _ _ _ _ => rfl)
    (fun i2 j2 hj2 => absurd hj2 (Nat.not_le.mpr j2.2))
    hdet ⟨i, hi⟩ ⟨j, hj⟩
  calc (StaticMatrix.gjLoop n n A.data A.data).getD (i * n + j) 0
      = toMat n (StaticMatrix.gjLoop n n A.data A.data) ⟨i, hi⟩ ⟨j, hj⟩ := rfl
    _ = if (⟨i, hi⟩ : Fin n) = ⟨j, hj⟩ then 1 else 0 := hgl
    _ = if i = j then 1 else 0 := by
        by_cases h : i = j
        · rw [if_pos (Fin.ext h), if_pos h]
        · rw [if_neg (fun hc => h (congrArg Fin.val hc)), if_neg h]

/-- C5.  Self-division of an invertible square matrix yields the
identity on both paths of Matrix::operator/= (Matrix.h lines 288-307):
when the two handles are literally the same cell (_p == other._p) the
shortcut skips elimination and rebuilds the result as value constructor
0 plus addIdentity on a fresh cell, and when they are distinct handles
holding equal data self detaches and the Gauss–Jordan elimination kernel
(StaticMatrix.h lines 414-493) runs on the two buffers; in both cases
the resulting handle points to an n x n identity matrix. -/
theorem self_division_yields_identity (s : Store ℚ) (a b n : Nat)
    (ha : a < s.cells.length) (hb : b < s.cells.length)
    (ham : (s.bufAt a).m = n) (han : (s.bufAt a).n = n)
    (hlen : (s.bufAt a).data.length = n * n)
    (hbb : s.bufAt b = s.bufAt a)
    (hdet : (toMat n (s.bufAt a).data).det ≠ 0) :
    ∃ a2 : Nat, (s.divEqHandle (some a) (some b)).2 = some a2 ∧
      ((s.divEqHandle (some a) (some b)).1.bufAt a2).m = n ∧
      ((s.divEqHandle (some a) (some b)).1.bufAt a2).n = n ∧
      ∀ i j : Nat, i < n → j < n →
        ((s.divEqHandle (some a) (some b)).1.bufAt a2).at' i j =
          if i = j then 1 else 0 := by
  by_cases hab : a = b
  · -- the same-cell shortcut path
    subst hab
    have hres : s.divEqHandle (some a) (some a) =
        (⟨(s.cells.set a (s.bufAt a, s.cntAt a - 1)) ++
            [(((StaticMatrix.mkVal (s.bufAt a).m (s.bufAt a).n 0).addIdentity :
                StaticMatrix ℚ), 1)]⟩,
          some (s.cells.set a (s.bufAt a, s.cntAt a - 1)).length) := by
      simp only [Store.divEqHandle]
      rw [if_true]
    have hbufL : (⟨(s.cells.set a (s.bufAt a, s.cntAt a - 1)) ++
          [(((StaticMatrix.mkVal (s.bufAt a).m (s.bufAt a).n 0).addIdentity :
              StaticMatrix ℚ), 1)]⟩ : Store ℚ).bufAt
            (s.cells.set a (s.bufAt a, s.cntAt a - 1)).length =
        (StaticMatrix.mkVal (s.bufAt a).m (s.bufAt a).n 0).addIdentity := by
      rw [Store.bufAt_mk, getD_append_self]
    refine ⟨(s.cells.set a (s.bufAt a, s.cntAt a - 1)).length, by rw [hres], ?_, ?_, ?_⟩
    · rw [hres]
      dsimp only
      rw [hbufL]
      exact ham
    · rw [hres]
      dsimp only
      rw [hbufL]
      exact han
    · intro i j hi hj
      rw [hres]
      dsimp only
      rw [hbufL, ham, han]
      exact addIdentity_mkVal_zero_entry n i j hi hj
  · -- distinct handles: detach, then the elimination kernel
    by_cases hsh : 1 < s.cntAt a
    · -- shared cell: detach first moves the handle onto a fresh deep copy
      set s2 : Store ℚ :=
        ⟨(s.cells.set a (s.bufAt a, s.cntAt a - 1)) ++ [(s.bufAt a, 1)]⟩ with hs2
      have hdet1 : s.detach (some a) = (s2, some s.cells.length) := by
        show (if 1 < s.cntAt a then
            ((⟨(s.cells.set a (s.bufAt a, s.cntAt a - 1)) ++ [(s.bufAt a, 1)]⟩ : Store ℚ),
              some s.cells.length)
          else (s, some a)) = (s2, some s.cells.length)
        rw [if_pos hsh]
      have hsetlen : (s.cells.set a (s.bufAt a, s.cntAt a - 1)).length = s.cells.length := by
        simp
      have hs2bufL : s2.bufAt s.cells.length = s.bufAt a := by
        rw [hs2, Store.bufAt_mk]
        rw [show s.cells.length = (s.cells.set a (s.bufAt a, s.cntAt a - 1)).length from
          hsetlen.symm]
        rw [getD_append_self]
      have hs2bufb : s2.bufAt b = s.bufAt a := by
        rw [hs2, Store.bufAt_mk]
        rw [getD_append_left _ _ (by rw [hsetlen]; exact hb)]
        rw [getD_set_ne _ _ _ hab]
        exact hbb
      have hL : s.cells.length < s2.cells.length := by
        rw [hs2]
        simp only [List.length_append, hsetlen, List.length_singleton]
        omega
      set s3 : Store ℚ :=
        ⟨s2.cells.set s.cells.length
            ((s2.bufAt s.cells.length).divEq (s2.bufAt b), s2.cntAt s.cells.length)⟩ with hs3
      have hres : s.divEqHandle (some a) (some b) = (s3, some s.cells.length) := by
        simp only [Store.divEqHandle]
        rw [if_neg hab, hdet1]
      have hs3bufL : s3.bufAt s.cells.length = (s.bufAt a).divEq (s.bufAt a) := by
        rw [hs3, Store.bufAt_mk, getD_set_self _ _ _ hL, hs2bufL, hs2bufb]
      refine ⟨s.cells.length, by rw [hres], ?_, ?_, ?_⟩
      · rw [hres]
        show (s3.bufAt s.cells.length).m = n
        rw [hs3bufL]
        exact ham
      · rw [hres]
        show (s3.bufAt s.cells.length).n = n
        rw [hs3bufL]
        exact han
      · intro i j hi hj
        rw [hres]
        show (s3.bufAt s.cells.length).at' i j = _
        rw [hs3bufL]
        exact divEq_self_entry n (s.bufAt a) han hlen hdet i j hi hj
    · -- unshared cell: detach is a no-op and a is overwritten in place
      have hdet1 : s.detach (some a) = (s, some a) := by
        show (if 1 < s.cntAt a then
            ((⟨(s.cells.set a (s.bufAt a, s.cntAt a - 1)) ++ [(s.bufAt a, 1)]⟩ : Store ℚ),
              some s.cells.length)
          else (s, some a)) = (s, some a)
        rw [if_neg hsh]
      set s3 : Store ℚ :=
        ⟨s.cells.set a ((s.bufAt a).divEq (s.bufAt b), s.cntAt a)⟩ with hs3
      have hres : s.divEqHandle (some a) (some b) = (s3, some a) := by
        simp only [Store.divEqHandle]
        rw [if_neg hab, hdet1]
      have hs3bufa : s3.bufAt a = (s.bufAt a).divEq (s.bufAt a) := by
        rw [hs3, Store.bufAt_mk, getD_set_self _ _ _ ha, hbb]
      refine ⟨a, by rw [hres], ?_, ?_, ?_⟩
      · rw [hres]
        show (s3.bufAt a).m = n
        rw [hs3bufa]
        exact ham
      · rw [hres]
        show (s3.bufAt a).n = n
        rw [hs3bufa]
        exact han
      · intro i j hi hj
        rw [hres]
        show (s3.bufAt a).at' i j = _
        rw [hs3bufa]
        exact divEq_self_entry n (s.bufAt a) han hlen hdet i j hi hj

/-- C5 witness: a two-cell store holding two separate copies of the
invertible 2 x 2 identity-data matrix; dividing handle 0 by handle 1
takes the elimination path and yields a handle onto a 2 x 2 identity. -/
theorem self_division_yields_identity_witness :
    ∃ a2 : Nat,
      ((⟨[(⟨2, 2, [1, 0, 0, 1]⟩, 1), (⟨2, 2, [1, 0, 0, 1]⟩, 1)]⟩ : Store ℚ).divEqHandle
          (some 0) (some 1)).2 = some a2 ∧
      (((⟨[(⟨2, 2, [1, 0, 0, 1]⟩, 1), (⟨2, 2, [1, 0, 0, 1]⟩, 1)]⟩ : Store ℚ).divEqHandle
          (some 0) (some 1)).1.bufAt a2).m = 2 ∧
      (((⟨[(⟨2, 2, [1, 0, 0, 1]⟩, 1), (⟨2, 2, [1, 0, 0, 1]⟩, 1)]⟩ : Store ℚ).divEqHandle
          (some 0) (some 1)).1.bufAt a2).n = 2 ∧
      ∀ i j : Nat, i < 2 → j < 2 →
        (((⟨[(⟨2, 2, [1, 0, 0, 1]⟩, 1), (⟨2, 2, [1, 0, 0, 1]⟩, 1)]⟩ : Store ℚ).divEqHandle
            (some 0) (some 1)).1.bufAt a2).at' i j = if i = j then 1 else 0 :=
  self_division_yields_identity
    ⟨[(⟨2, 2, [1, 0, 0, 1]⟩, 1), (⟨2, 2, [1, 0, 0, 1]⟩, 1)]⟩ 0 1 2
    (by decide) (by decide) rfl rfl rfl rfl
    (by rw [Matrix.det_fin_two]; show (1 : ℚ) * 1 - 0 * 0 ≠ 0; norm_num)

end NetNeurons
